import Mathlib

/-!
Colour-matrix engine of `ext/cog/gstcolorconvert.c`.

A shallow embedding of the "simple CMS" of the cog colour-convert element:
the 4x4 homogeneous colour matrices, the transfer functions, the gamut clamp
and the builder of the 3 x 256^3 byte lookup table.

The C code computes in `double`.  The embedding is generic in an ordered field
`F` (with a floor function, used by `rint`), so that every definition can be
evaluated over `ℚ`, while the theorems are stated over `ℝ`, that is in exact
arithmetic.  The C library function `pow` is an argument of the functions that
call it; over `ℝ` it is instantiated with the real power.
-/

namespace CogColor

/-! ## Data model -/

/-- The C `struct _Color`: `double v[3]`. -/
abbrev Color (F : Type) := Fin 3 → F

/-- The C `struct _ColorMatrix`: `double m[4][4]`, indexed `m[row][column]`. -/
abbrev ColorMatrix (F : Type) := Fin 4 → Fin 4 → F

variable {F : Type} [LinearOrderedField F] [FloorRing F]

/-- The C `color_set`: the colour with components `x`, `y`, `z`. -/
def color_set (x y z : F) : Color F := ![x, y, z]

/-- Assignment `m->m[i][j] = x` to one entry of a matrix. -/
def setEntry (m : ColorMatrix F) (i j : Fin 4) (x : F) : ColorMatrix F :=
  fun r c => if r = i ∧ c = j then x else m r c

/-- A 4x4 matrix written row by row, as a C initialiser
`{ {..}, {..}, {..}, {..} }` or as entry-by-entry assignments. -/
def ofRows (r0 r1 r2 r3 : Fin 4 → F) : ColorMatrix F :=
  fun i => match i with
    | 0 => r0
    | 1 => r1
    | 2 => r2
    | 3 => r3

/-! ## Matrix algebra -/

/-- The C `color_matrix_set_identity`: entry `[i][j]` is `(i == j)`. -/
def color_matrix_set_identity : ColorMatrix F :=
  fun i j => if i = j then 1 else 0

/-- The C `color_matrix_multiply`: `dst = a * b`.  Every entry is accumulated
in `x`, starting from `0`, over `k = 0, 1, 2, 3`; the product is built in a
temporary and copied out, so the destination may alias an operand. -/
def color_matrix_multiply (a b : ColorMatrix F) : ColorMatrix F :=
  fun i j => ([0, 1, 2, 3] : List (Fin 4)).foldl (fun x k => x + a i k * b k j) 0

/-- The C `color_matrix_apply`: the first three rows of `m` times the
homogeneous column `[src, 1]`. -/
def color_matrix_apply (m : ColorMatrix F) (src : Color F) : Color F :=
  fun i =>
    let r : Fin 4 := Fin.castSucc i
    (((0 + m r 0 * src 0) + m r 1 * src 1) + m r 2 * src 2) + m r 3

/-- The C `color_matrix_offset_components`: `m = a * m` with `a` the identity
whose translation column is `(a1, a2, a3)`. -/
def color_matrix_offset_components (m : ColorMatrix F) (a1 a2 a3 : F) : ColorMatrix F :=
  let a : ColorMatrix F := color_matrix_set_identity
  let a := setEntry a 0 3 a1
  let a := setEntry a 1 3 a2
  let a := setEntry a 2 3 a3
  color_matrix_multiply a m

/-- The C `color_matrix_scale_components`: `m = a * m` with `a` the identity
whose diagonal is `(a1, a2, a3, 1)`. -/
def color_matrix_scale_components (m : ColorMatrix F) (a1 a2 a3 : F) : ColorMatrix F :=
  let a : ColorMatrix F := color_matrix_set_identity
  let a := setEntry a 0 0 a1
  let a := setEntry a 1 1 a2
  let a := setEntry a 2 2 a3
  color_matrix_multiply a m

/-- The matrix `k` of the C `color_matrix_YCbCr_to_RGB`. -/
def YCbCr_to_RGB_k (Kr Kb : F) : ColorMatrix F :=
  let Kg := 1.0 - Kr - Kb
  ofRows ![1, 0, 2 * (1 - Kr), 0]
    ![1, -2 * Kb * (1 - Kb) / Kg, -2 * Kr * (1 - Kr) / Kg, 0]
    ![1, 2 * (1 - Kb), 0, 0]
    ![0, 0, 0, 1]

/-- The C `color_matrix_YCbCr_to_RGB`: `m = k * m`. -/
def color_matrix_YCbCr_to_RGB (m : ColorMatrix F) (Kr Kb : F) : ColorMatrix F :=
  color_matrix_multiply (YCbCr_to_RGB_k Kr Kb) m

/-- The matrix `k` of the C `color_matrix_RGB_to_YCbCr`, filled entry by
entry; `x` is `1 / (2 * (1 - Kb))` for row 1 and `1 / (2 * (1 - Kr))` for
row 2. -/
def RGB_to_YCbCr_k (Kr Kb : F) : ColorMatrix F :=
  let Kg := 1.0 - Kr - Kb
  let x1 := 1 / (2 * (1 - Kb))
  let x2 := 1 / (2 * (1 - Kr))
  ofRows ![Kr, Kg, Kb, 0]
    ![-x1 * Kr, -x1 * Kg, x1 * (1 - Kb), 0]
    ![x2 * (1 - Kr), -x2 * Kg, -x2 * Kb, 0]
    ![0, 0, 0, 1]

/-- The C `color_matrix_RGB_to_YCbCr`: `m = k * m`. -/
def color_matrix_RGB_to_YCbCr (m : ColorMatrix F) (Kr Kb : F) : ColorMatrix F :=
  color_matrix_multiply (RGB_to_YCbCr_k Kr Kb) m

/-- The index `n % 3` of the cyclic cofactor formula, as a row or column. -/
def cyc (n : Nat) : Fin 4 := ⟨n % 3, by omega⟩

/-- The first loop of the C `color_matrix_invert`: `tmp` starts as the
identity and, for `j, i < 3`, `tmp[j][i]` becomes the cofactor
`m[(i+1)%3][(j+1)%3] * m[(i+2)%3][(j+2)%3] -
 m[(i+1)%3][(j+2)%3] * m[(i+2)%3][(j+1)%3]`. -/
def invert_cofactors (m : ColorMatrix F) : ColorMatrix F :=
  fun j i =>
    if j.val < 3 ∧ i.val < 3 then
      m (cyc (i.val + 1)) (cyc (j.val + 1)) * m (cyc (i.val + 2)) (cyc (j.val + 2)) -
        m (cyc (i.val + 1)) (cyc (j.val + 2)) * m (cyc (i.val + 2)) (cyc (j.val + 1))
    else color_matrix_set_identity j i

/-- The `det` of the C `color_matrix_invert`, computed from the cofactors. -/
def invert_det (m : ColorMatrix F) : F :=
  let tmp := invert_cofactors m
  tmp 0 0 * m 0 0 + tmp 0 1 * m 1 0 + tmp 0 2 * m 2 0

/-- The C `color_matrix_invert`: the cofactors of the 3x3 block divided by
`det`; row 3 and column 3 stay those of the identity. -/
def color_matrix_invert (m : ColorMatrix F) : ColorMatrix F :=
  let tmp := invert_cofactors m
  let det := invert_det m
  fun i j => if i.val < 3 ∧ j.val < 3 then tmp i j / det else tmp i j

/-- The C `color_matrix_transpose`: the 3x3 block transposed inside an
identity matrix. -/
def color_matrix_transpose (m : ColorMatrix F) : ColorMatrix F :=
  fun i j => if i.val < 3 ∧ j.val < 3 then m j i else color_matrix_set_identity i j

/-- The 3x3 linear block of a colour matrix, as a Mathlib matrix. -/
def linearPart (m : ColorMatrix F) : Matrix (Fin 3) (Fin 3) F :=
  Matrix.of fun i j => m (Fin.castSucc i) (Fin.castSucc j)

/-- Row 3 of the matrix is `[0, 0, 0, 1]`. -/
def Row3Identity (m : ColorMatrix F) : Prop :=
  m 3 0 = 0 ∧ m 3 1 = 0 ∧ m 3 2 = 0 ∧ m 3 3 = 1

/-- The translation column `m[0..2][3]` of a colour matrix. -/
def translation (m : ColorMatrix F) : Color F :=
  fun i => m (Fin.castSucc i) 3

/-! ## Chromaticity conversions -/

/-- The C `color_xyY_to_XYZ`: `(0, 0, 0)` when `y` is zero, else
`X = x * Y / y`, `Y`, `Z = (1 - x - y) * Y / y`. -/
def color_xyY_to_XYZ (c : Color F) : Color F :=
  if c 1 = 0 then ![0, 0, 0]
  else
    let X := c 0 * c 2 / c 1
    let Y := c 2
    let Z := (1.0 - c 0 - c 1) * c 2 / c 1
    ![X, Y, Z]

/-- The C `color_XYZ_to_xyY`: `(0.3128, 0.3290, 0)` when `d = X + Y + Z` is
zero, else `x = X / d`, `y = Y / d`, `Y`. -/
def color_XYZ_to_xyY (c : Color F) : Color F :=
  let d := c 0 + c 1 + c 2
  if d = 0 then ![0.3128, 0.3290, 0]
  else
    let x := c 0 / d
    let y := c 1 / d
    let Y := c 1
    ![x, y, Y]

/-! ## Named transform builders -/

/-- The C `color_matrix_build_yuv_to_rgb_601`: identity, offset by
`(-16, -128, -128)`, scale by `(1/219, 1/224, 1/224)`, then YCbCr to RGB with
`Kr = 0.2990`, `Kb = 0.1140`. -/
def color_matrix_build_yuv_to_rgb_601 : ColorMatrix F :=
  let dst : ColorMatrix F := color_matrix_set_identity
  let dst := color_matrix_offset_components dst (-16) (-128) (-128)
  let dst := color_matrix_scale_components dst (1 / 219.0) (1 / 224.0) (1 / 224.0)
  color_matrix_YCbCr_to_RGB dst 0.2990 0.1140

/-- The C `color_matrix_build_rgb_to_yuv_601`: identity, RGB to YCbCr with
`Kr = 0.2990`, `Kb = 0.1140`, scale by `(219, 224, 224)`, offset by
`(16, 128, 128)`.  The block that prints test colours works on a local
colour and leaves the matrix alone. -/
def color_matrix_build_rgb_to_yuv_601 : ColorMatrix F :=
  let dst : ColorMatrix F := color_matrix_set_identity
  let dst := color_matrix_RGB_to_YCbCr dst 0.2990 0.1140
  let dst := color_matrix_scale_components dst 219.0 224.0 224.0
  color_matrix_offset_components dst 16 128 128

/-- The 3x3 block of `dst` set from three colours: row 0 from `r`, row 1 from
`g`, row 2 from `b`, each scaled by a component of `scale`, as the nine
assignments `dst->m[i][k] = ...` of `color_matrix_build_XYZ`. -/
def setPrimaries (dst : ColorMatrix F) (r g b scale : Color F) : ColorMatrix F :=
  let dst := setEntry dst 0 0 (r 0 * scale 0)
  let dst := setEntry dst 0 1 (r 1 * scale 0)
  let dst := setEntry dst 0 2 (r 2 * scale 0)
  let dst := setEntry dst 1 0 (g 0 * scale 1)
  let dst := setEntry dst 1 1 (g 1 * scale 1)
  let dst := setEntry dst 1 2 (g 2 * scale 1)
  let dst := setEntry dst 2 0 (b 0 * scale 2)
  let dst := setEntry dst 2 1 (b 1 * scale 2)
  setEntry dst 2 2 (b 2 * scale 2)

/-- The first matrix of the C `color_matrix_build_XYZ`: the identity whose
3x3 block has the XYZ values of the primaries as rows
(`dst->m[0][k] = r.v[k]`, `dst->m[1][k] = g.v[k]`, `dst->m[2][k] = b.v[k]`). -/
def primariesMatrix (r g b : Color F) : ColorMatrix F :=
  let dst : ColorMatrix F := color_matrix_set_identity
  let dst := setEntry dst 0 0 (r 0)
  let dst := setEntry dst 0 1 (r 1)
  let dst := setEntry dst 0 2 (r 2)
  let dst := setEntry dst 1 0 (g 0)
  let dst := setEntry dst 1 1 (g 1)
  let dst := setEntry dst 1 2 (g 2)
  let dst := setEntry dst 2 0 (b 0)
  let dst := setEntry dst 2 1 (b 1)
  setEntry dst 2 2 (b 2)

/-- The C `color_matrix_build_XYZ`: the primaries and the white point go from
xyY (with `Y = 1`) to XYZ; `scale` is the white point through the transposed
inverse of the primaries matrix; the rows of `dst` are the primaries scaled
by `scale`, and `dst` is transposed at the end.  The dumps and prints are
left out. -/
def color_matrix_build_XYZ (rx ry gx gy bx by_ wx wy : F) : ColorMatrix F :=
  let r := color_xyY_to_XYZ (color_set rx ry 1.0)
  let g := color_xyY_to_XYZ (color_set gx gy 1.0)
  let b := color_xyY_to_XYZ (color_set bx by_ 1.0)
  let w := color_xyY_to_XYZ (color_set wx wy 1.0)
  let dst := primariesMatrix r g b
  let m := dst
  let m := color_matrix_invert m
  let m := color_matrix_transpose m
  let scale := color_matrix_apply m w
  let dst := setPrimaries dst r g b scale
  color_matrix_transpose dst

/-- The C `color_matrix_build_rgb_to_XYZ_601`: the SMPTE C primaries. -/
def color_matrix_build_rgb_to_XYZ_601 : ColorMatrix F :=
  color_matrix_build_XYZ 0.630 0.340 0.310 0.595 0.155 0.070 0.3127 0.3290

/-- The C `color_matrix_build_XYZ_to_rgb_709`: the BT.709 primaries (the C
function does not invert, whatever its name says). -/
def color_matrix_build_XYZ_to_rgb_709 : ColorMatrix F :=
  color_matrix_build_XYZ 0.640 0.330 0.300 0.600 0.150 0.060 0.3127 0.3290

/-- The C `color_matrix_build_XYZ_to_rgb_dell`: the Dell monitor primaries,
then `color_matrix_invert`. -/
def color_matrix_build_XYZ_to_rgb_dell : ColorMatrix F :=
  color_matrix_invert
    (color_matrix_build_XYZ 0.662 0.329 0.205 0.683 0.146 0.077 0.3135 0.3290)

/-! ## Transfer functions and gamut clamp -/

/-- The C `color_transfer_function_apply`; `pow` is the C library power. -/
def color_transfer_function_apply (pow : F → F → F) (src : Color F) : Color F :=
  fun i =>
    if src i < 0.0812 then src i / 4.500
    else pow (src i + 0.099) (1 / 0.4500)

/-- The C `color_transfer_function_unapply`; `pow` is the C library power. -/
def color_transfer_function_unapply (pow : F → F → F) (src : Color F) : Color F :=
  fun i =>
    if src i < 0.0812 / 4.500 then src i * 4.500
    else pow (src i) 0.4500 - 0.099

/-- Modelled from the spec: the GLib macro `CLAMP`, whose definition is not in
the sources; the spec says the clamp restricts a component to `[low, high]`.
Written as GLib does: `x > high ? high : (x < low ? low : x)`. -/
def CLAMP (x low high : F) : F :=
  if x > high then high else if x < low then low else x

/-- The C `color_gamut_clamp`: every component clamped to `[0.0, 1.0]`. -/
def color_gamut_clamp (src : Color F) : Color F :=
  ![CLAMP (src 0) 0.0 1.0, CLAMP (src 1) 0.0 1.0, CLAMP (src 2) 0.0 1.0]

/-! ## The transform table -/

/-- The C library `rint` in the default rounding mode: the nearest integer,
a tie going to the even neighbour. -/
def rint (x : F) : ℤ :=
  let f := ⌊x⌋
  let d := x - (f : F)
  if d < 1 / 2 then f
  else if 1 / 2 < d then f + 1
  else if f % 2 = 0 then f
  else f + 1

/-- The conversion of the value of `rint` to `uint8_t` at the store, as a
byte: the value modulo 256. -/
def toByte (n : ℤ) : ℕ := (n % 256).toNat

/-- The table memory: the byte stored at each offset from the pointer that
`g_malloc` returned. -/
abbrev Table := ℕ → ℕ

/-- The assignment `table[i] = b`. -/
def store (t : Table) (i b : ℕ) : Table :=
  fun k => if k = i then b else t k

/-- Modelled from the spec: the cog macro `COG_OFFSET`, whose definition is
not in the sources; the spec addresses the channel sub-ranges as
`channel_index * 0x1000000 + index`, so it adds a byte offset to a pointer. -/
def COG_OFFSET (ptr offset : ℕ) : ℕ := ptr + offset

/-- The flat index `(y << 16) | (u << 8) | v` of the C code. -/
def flatIndex (y u v : ℕ) : ℕ := (y <<< 16) ||| (u <<< 8) ||| v

/-- The colour computed for the triple `(y, u, v)` by the body of the loops of
the C `get_color_transform_table`, before rounding: the eight calls on `c`,
in the order of the source. -/
def table_color (pow : F → F → F) (y u v : ℕ) : Color F :=
  let c : Color F := ![(y : F), (u : F), (v : F)]
  let c := color_matrix_apply color_matrix_build_yuv_to_rgb_601 c
  let c := color_gamut_clamp c
  let c := color_transfer_function_apply pow c
  let c := color_matrix_apply color_matrix_build_rgb_to_XYZ_601 c
  let c := color_matrix_apply color_matrix_build_XYZ_to_rgb_dell c
  let c := color_transfer_function_unapply pow c
  let c := color_gamut_clamp c
  color_matrix_apply color_matrix_build_rgb_to_yuv_601 c

/-- The body of the loops of the C `get_color_transform_table`: the three
stores for the triple `(y, u, v)`; the table pointer is offset 0. -/
def table_body (pow : F → F → F) (t : Table) (y u v : ℕ) : Table :=
  let table_y := COG_OFFSET 0 (0 * 0x1000000)
  let table_u := COG_OFFSET 0 (1 * 0x1000000)
  let table_v := COG_OFFSET 0 (2 * 0x1000000)
  let c := table_color pow y u v
  let t := store t (table_y + flatIndex y u v) (toByte (rint (c 0)))
  let t := store t (table_u + flatIndex y u v) (toByte (rint (c 1)))
  store t (table_v + flatIndex y u v) (toByte (rint (c 2)))

/-- The three nested loops of the C `get_color_transform_table`, `y`, `u`,
`v` each from 0 to 255, on the memory `t0` that `g_malloc` returned. -/
def fill_table (pow : F → F → F) (t0 : Table) : Table :=
  (List.range 256).foldl
    (fun t y => (List.range 256).foldl
      (fun t u => (List.range 256).foldl
        (fun t v => table_body pow t y u v) t) t) t0

/-- The C `get_color_transform_table`, with the static variable
`color_transform_table` as explicit state: `none` is the null pointer, `some t`
a built table.  `fresh` is the memory `g_malloc` returns when the table has to
be built.  The result is the new state and the returned table. -/
def get_color_transform_table (pow : F → F → F) (fresh : Table)
    (st : Option Table) : Option Table × Table :=
  match st with
  | some t => (some t, t)
  | none =>
    let t := fill_table pow fresh
    (some t, t)

/-- The loop body run over the triples in a given order: the table build with
the triples visited as `order` lists them. -/
def fill_table_in_order (pow : F → F → F) (order : List (ℕ × ℕ × ℕ))
    (t0 : Table) : Table :=
  order.foldl (fun t x => table_body pow t x.1 x.2.1 x.2.2) t0

/-- The order of the nested loops of the source: `y` outermost, `v`
innermost. -/
def referenceOrder : List (ℕ × ℕ × ℕ) :=
  (List.range 256).flatMap fun y =>
    (List.range 256).flatMap fun u =>
      (List.range 256).map fun v => (y, u, v)

/-- The byte the table is to hold at offset `k`: the offset is read as
`channel * 0x1000000 + ((y << 16) | (u << 8) | v)` and the byte is the rounded
component `channel` of the colour computed for `(y, u, v)`. -/
def expectedByte (pow : F → F → F) (k : ℕ) : ℕ :=
  toByte (rint (table_color pow (k % 0x1000000 / 0x10000) (k / 0x100 % 0x100) (k % 0x100)
    ⟨k / 0x1000000 % 3, Nat.mod_lt _ (by decide)⟩))

/-- The offset `k` is one of the three offsets written for the triple
`(y, u, v)`. -/
def WrittenFor (y u v k : ℕ) : Prop :=
  k < 3 * 0x1000000 ∧ k % 0x1000000 = y * 0x10000 + u * 0x100 + v

/-! ## The per-row pixel applier -/

/-- The C `color_transform`: for `i` from 0 up to `frame->width`,
`dest[i] = table[(src_y[i] << 16) | (src_u[i] << 8) | src_v[i]]`, where `table`
is `COG_OFFSET (frame->virt_priv2, component * 0x1000000)`.  A row is given by
the byte read at each index from its pointer; `virt_priv2` is the transform
table, at offset 0. -/
def color_transform (virt_priv2 : Table) (width : ℤ) (src_y src_u src_v : ℕ → ℕ)
    (dest : ℕ → ℕ) (component : ℕ) : ℕ → ℕ :=
  let table := COG_OFFSET 0 (component * 0x1000000)
  (List.range width.toNat).foldl
    (fun dest i =>
      store dest i (virt_priv2 (table + ((src_y i <<< 16) ||| (src_u i <<< 8) ||| src_v i))))
    dest

/-! ## Matrices named by the claims -/

/-- The matrix used against C2: the identity with translation column
`(1, 0, 0)`. -/
def shiftMatrix : ColorMatrix ℝ :=
  ofRows ![1, 0, 0, 1] ![0, 1, 0, 0] ![0, 0, 1, 0] ![0, 0, 0, 1]

/-- The pure translation by `(d1, d2, d3)` as a homogeneous matrix. -/
def translationMatrix (d1 d2 d3 : F) : ColorMatrix F :=
  ofRows ![1, 0, 0, d1] ![0, 1, 0, d2] ![0, 0, 1, d3] ![0, 0, 0, 1]

/-- The scaling `diag(s1, s2, s3, 1)` as a homogeneous matrix. -/
def scalingMatrix (s1 s2 s3 : F) : ColorMatrix F :=
  ofRows ![s1, 0, 0, 0] ![0, s2, 0, 0] ![0, 0, s3, 0] ![0, 0, 0, 1]

end CogColor

namespace CogColor

/-! ## Properties of the matrix algebra -/

/-- Row 2 of the 3x3 block is row 2 of the 4x4 matrix. -/
theorem castSucc_two : Fin.castSucc (2 : Fin 3) = (2 : Fin 4) := rfl

/-- The numeral `3` of `Fin 4` is the number 3. -/
theorem val_three : ((3 : Fin 4) : ℕ) = 3 := rfl

/-- The `det` computed by `color_matrix_invert` is the determinant of the
3x3 linear block. -/
theorem invert_det_eq (M : ColorMatrix ℝ) : invert_det M = (linearPart M).det := by
  rw [Matrix.det_fin_three]
  simp [invert_det, invert_cofactors, linearPart, cyc, castSucc_two]
  ring

/-- The 3x3 block of `color_matrix_invert M` is the adjugate of the block of
`M` divided by its determinant. -/
theorem invert_linearPart (M : ColorMatrix ℝ) :
    linearPart (color_matrix_invert M) =
      ((linearPart M).det)⁻¹ • (linearPart M).adjugate := by
  rw [← invert_det_eq]
  ext i j
  fin_cases i <;> fin_cases j <;>
    simp [color_matrix_invert, invert_cofactors, linearPart, cyc, castSucc_two,
      Matrix.adjugate_fin_three, div_eq_inv_mul, -mul_eq_mul_left_iff] <;> ring

/-- The 3x3 block of the inverse is a right inverse of the 3x3 block. -/
theorem linearPart_mul_invert (M : ColorMatrix ℝ) (hdet : (linearPart M).det ≠ 0) :
    linearPart M * linearPart (color_matrix_invert M) = 1 := by
  rw [invert_linearPart, Matrix.mul_smul, Matrix.mul_adjugate, smul_smul,
    inv_mul_cancel₀ hdet, one_smul]

/-- The 3x3 block of the inverse is a left inverse of the 3x3 block. -/
theorem linearPart_invert_mul (M : ColorMatrix ℝ) (hdet : (linearPart M).det ≠ 0) :
    linearPart (color_matrix_invert M) * linearPart M = 1 := by
  rw [invert_linearPart, Matrix.smul_mul, Matrix.adjugate_mul, smul_smul,
    inv_mul_cancel₀ hdet, one_smul]

/-- Column 3 and row 3 of `color_matrix_invert M` are those of the identity. -/
theorem invert_border (M : ColorMatrix ℝ) :
    translation (color_matrix_invert M) = (fun _ => 0) ∧
      Row3Identity (color_matrix_invert M) := by
  constructor
  · funext i
    fin_cases i <;>
      simp [translation, color_matrix_invert, invert_cofactors, color_matrix_set_identity,
        castSucc_two, val_three]
  · simp [Row3Identity, color_matrix_invert, invert_cofactors, color_matrix_set_identity,
      val_three]

/-- Entry `(i, j)` of the product of two 3x3 blocks. -/
theorem linearPart_mul_entry (A B : ColorMatrix ℝ) (i j : Fin 3) :
    (linearPart A * linearPart B) i j =
      A (Fin.castSucc i) 0 * B 0 (Fin.castSucc j) +
        A (Fin.castSucc i) 1 * B 1 (Fin.castSucc j) +
        A (Fin.castSucc i) 2 * B 2 (Fin.castSucc j) := by
  simp [Matrix.mul_apply, Fin.sum_univ_three, linearPart, castSucc_two]

/-- The identity matrix is a right unit of `color_matrix_multiply`. -/
theorem multiply_set_identity_right (A : ColorMatrix ℝ) :
    color_matrix_multiply A color_matrix_set_identity = A := by
  funext i j
  fin_cases i <;> fin_cases j <;>
    simp [color_matrix_multiply, color_matrix_set_identity]

/-- The identity matrix is a left unit of `color_matrix_multiply`. -/
theorem multiply_set_identity_left (A : ColorMatrix ℝ) :
    color_matrix_multiply color_matrix_set_identity A = A := by
  funext i j
  fin_cases i <;> fin_cases j <;>
    simp [color_matrix_multiply, color_matrix_set_identity]

/-- Entry `[i][j]` of a product, the accumulation loop written out. -/
theorem multiply_entry (a b : ColorMatrix ℝ) (i j : Fin 4) :
    color_matrix_multiply a b i j =
      a i 0 * b 0 j + a i 1 * b 1 j + a i 2 * b 2 j + a i 3 * b 3 j := by
  simp [color_matrix_multiply]

set_option maxHeartbeats 1000000 in
/-- The matrix of `color_matrix_YCbCr_to_RGB` times the matrix of
`color_matrix_RGB_to_YCbCr` is the identity. -/
theorem YCbCr_k_mul_RGB_k (Kr Kb : ℝ) (hr : Kr ≠ 1) (hb : Kb ≠ 1)
    (hg : 1 - Kr - Kb ≠ 0) :
    color_matrix_multiply (YCbCr_to_RGB_k Kr Kb) (RGB_to_YCbCr_k Kr Kb) =
      color_matrix_set_identity := by
  have hr1 : 1 - Kr ≠ 0 := sub_ne_zero.mpr (Ne.symm hr)
  have hb1 : 1 - Kb ≠ 0 := sub_ne_zero.mpr (Ne.symm hb)
  have h1 : (1.0 : ℝ) = 1 := by norm_num
  funext i j
  rw [multiply_entry]
  fin_cases i <;> fin_cases j <;>
    simp [YCbCr_to_RGB_k, RGB_to_YCbCr_k, ofRows, color_matrix_set_identity, h1] <;>
    first
      | ring1
      | (field_simp; ring1)

set_option maxHeartbeats 1000000 in
/-- The matrix of `color_matrix_RGB_to_YCbCr` times the matrix of
`color_matrix_YCbCr_to_RGB` is the identity. -/
theorem RGB_k_mul_YCbCr_k (Kr Kb : ℝ) (hr : Kr ≠ 1) (hb : Kb ≠ 1)
    (hg : 1 - Kr - Kb ≠ 0) :
    color_matrix_multiply (RGB_to_YCbCr_k Kr Kb) (YCbCr_to_RGB_k Kr Kb) =
      color_matrix_set_identity := by
  have hr1 : 1 - Kr ≠ 0 := sub_ne_zero.mpr (Ne.symm hr)
  have hb1 : 1 - Kb ≠ 0 := sub_ne_zero.mpr (Ne.symm hb)
  have h1 : (1.0 : ℝ) = 1 := by norm_num
  funext i j
  rw [multiply_entry]
  fin_cases i <;> fin_cases j <;>
    simp [YCbCr_to_RGB_k, RGB_to_YCbCr_k, ofRows, color_matrix_set_identity, h1] <;>
    first
      | ring1
      | (field_simp; ring1)

/-- C1: for every 4x4 colour matrix `A` over the reals,
`color_matrix_multiply(A, I) = A` and `color_matrix_multiply(I, A) = A`,
with `I` the matrix made by `color_matrix_set_identity`. -/
theorem multiply_identity (A : ColorMatrix ℝ) :
    color_matrix_multiply A color_matrix_set_identity = A ∧
      color_matrix_multiply color_matrix_set_identity A = A :=
  ⟨multiply_set_identity_right A, multiply_set_identity_left A⟩

/-- The determinant of the 3x3 block of `shiftMatrix` is not zero. -/
theorem shiftMatrix_det : (linearPart shiftMatrix).det ≠ 0 := by
  rw [Matrix.det_fin_three]
  simp [linearPart, shiftMatrix, ofRows, castSucc_two]

/-- Row 3 of `shiftMatrix` is `[0, 0, 0, 1]`. -/
theorem shiftMatrix_row3 : Row3Identity shiftMatrix :=
  ⟨rfl, rfl, rfl, rfl⟩

/-- The product `M * invert(M)` moves a point by the translation column of
`M`, whatever row 3 of `M` is. -/
theorem apply_multiply_invert (M : ColorMatrix ℝ) (hdet : (linearPart M).det ≠ 0)
    (p : Color ℝ) :
    color_matrix_apply (color_matrix_multiply M (color_matrix_invert M)) p =
      fun i => p i + translation M i := by
  have hb := invert_border M
  have ht : ∀ i : Fin 3, color_matrix_invert M (Fin.castSucc i) 3 = 0 :=
    fun i => congrFun hb.1 i
  have ht0 := ht 0
  have ht1 := ht 1
  have ht2 := ht 2
  obtain ⟨h30, h31, h32, h33⟩ := hb.2
  have hmul := linearPart_mul_invert M hdet
  funext i
  have e0 := linearPart_mul_entry M (color_matrix_invert M) i 0
  have e1 := linearPart_mul_entry M (color_matrix_invert M) i 1
  have e2 := linearPart_mul_entry M (color_matrix_invert M) i 2
  rw [hmul] at e0 e1 e2
  simp only [Fin.castSucc_zero, Fin.castSucc_one, castSucc_two] at e0 e1 e2 ht0 ht1 ht2
  simp only [color_matrix_apply, multiply_entry, translation, h30, h31, h32, h33,
    ht0, ht1, ht2]
  fin_cases i
  · simp [Matrix.one_apply] at e0 e1 e2 ⊢
    linear_combination (-(p 0)) * e0 - p 1 * e1 - p 2 * e2
  · simp [Matrix.one_apply] at e0 e1 e2 ⊢
    linear_combination (-(p 0)) * e0 - p 1 * e1 - p 2 * e2
  · simp [Matrix.one_apply, castSucc_two] at e0 e1 e2 ⊢
    linear_combination (-(p 0)) * e0 - p 1 * e1 - p 2 * e2

/-- C2, as stated, fails: `shiftMatrix` has row 3 equal to `[0, 0, 0, 1]` and
an invertible 3x3 block, yet `M * invert(M)` applied to the origin gives
`(1, 0, 0)`, not the origin. -/
theorem multiply_invert_apply_counterexample :
    Row3Identity shiftMatrix ∧ (linearPart shiftMatrix).det ≠ 0 ∧
      color_matrix_apply
        (color_matrix_multiply shiftMatrix (color_matrix_invert shiftMatrix)) ![0, 0, 0] =
          ![1, 0, 0] ∧
      color_matrix_apply
        (color_matrix_multiply shiftMatrix (color_matrix_invert shiftMatrix)) ![0, 0, 0] ≠
          ![0, 0, 0] := by
  have h : color_matrix_apply
      (color_matrix_multiply shiftMatrix (color_matrix_invert shiftMatrix)) ![0, 0, 0] =
        ![1, 0, 0] := by
    rw [apply_multiply_invert shiftMatrix shiftMatrix_det]
    funext i
    fin_cases i <;> simp [translation, shiftMatrix, ofRows, castSucc_two]
  refine ⟨shiftMatrix_row3, shiftMatrix_det, h, ?_⟩
  rw [h]
  intro hc
  have := congrFun hc 0
  simp at this

/-- C2, amended: for every colour matrix `M` whose row 3 is `[0, 0, 0, 1]` and
whose 3x3 block has non-zero determinant, and every point `p`,
`apply(multiply(M, invert(M)), p)` is `p` moved by the translation column of
`M`; it is `p` itself when that translation column is zero. -/
theorem multiply_invert_apply (M : ColorMatrix ℝ) (hrow : Row3Identity M)
    (hdet : (linearPart M).det ≠ 0) (p : Color ℝ) :
    color_matrix_apply (color_matrix_multiply M (color_matrix_invert M)) p =
        (fun i => p i + translation M i) ∧
      (translation M = (fun _ => 0) →
        color_matrix_apply (color_matrix_multiply M (color_matrix_invert M)) p = p) := by
  have _ := hrow
  refine ⟨apply_multiply_invert M hdet p, fun h0 => ?_⟩
  rw [apply_multiply_invert M hdet p, h0]
  funext i
  simp

/-- Witness of the amended C2: the matrix `diag(2, 1, 1, 1)` and the point
`(1, 2, 3)`. -/
theorem multiply_invert_apply_witness :
    Row3Identity (ofRows ![2, 0, 0, 0] ![0, 1, 0, 0] ![0, 0, 1, 0] ![0, 0, 0, 1] :
        ColorMatrix ℝ) ∧
      color_matrix_apply (color_matrix_multiply
        (ofRows ![2, 0, 0, 0] ![0, 1, 0, 0] ![0, 0, 1, 0] ![0, 0, 0, 1] : ColorMatrix ℝ)
        (color_matrix_invert
          (ofRows ![2, 0, 0, 0] ![0, 1, 0, 0] ![0, 0, 1, 0] ![0, 0, 0, 1] : ColorMatrix ℝ)))
        ![1, 2, 3] = ![1, 2, 3] :=
  have hrow : Row3Identity (ofRows ![2, 0, 0, 0] ![0, 1, 0, 0] ![0, 0, 1, 0] ![0, 0, 0, 1] :
      ColorMatrix ℝ) := ⟨rfl, rfl, rfl, rfl⟩
  have hdet : (linearPart (ofRows ![2, 0, 0, 0] ![0, 1, 0, 0] ![0, 0, 1, 0] ![0, 0, 0, 1] :
      ColorMatrix ℝ)).det ≠ 0 := by
    rw [Matrix.det_fin_three]
    simp [linearPart, ofRows, castSucc_two]
  ⟨hrow, (multiply_invert_apply _ hrow hdet ![1, 2, 3]).2 (by
    funext i
    fin_cases i <;> simp [translation, ofRows, castSucc_two])⟩

/-- C3: for every colour matrix `M` whose 3x3 linear block `L` has non-zero
determinant, the 3x3 block of `color_matrix_invert M` is the two-sided inverse
of `L`, equal to the adjugate of `L` divided by the determinant; the
translation column of the result is zero and its row 3 is `[0, 0, 0, 1]`,
whatever the translation column and row 3 of `M` are. -/
theorem invert_spec (M : ColorMatrix ℝ) (hdet : (linearPart M).det ≠ 0) :
    linearPart M * linearPart (color_matrix_invert M) = 1 ∧
      linearPart (color_matrix_invert M) * linearPart M = 1 ∧
      linearPart (color_matrix_invert M) =
        ((linearPart M).det)⁻¹ • (linearPart M).adjugate ∧
      translation (color_matrix_invert M) = (fun _ => 0) ∧
      Row3Identity (color_matrix_invert M) := by
  exact ⟨linearPart_mul_invert M hdet, linearPart_invert_mul M hdet, invert_linearPart M,
    (invert_border M).1, (invert_border M).2⟩

/-- Witness of C3: the matrix with linear block `diag(2, 1, 1)`, translation
column `(5, 0, 0)` and row 3 equal to `[7, 0, 0, 1]`. -/
theorem invert_spec_witness :
    (linearPart (ofRows ![2, 0, 0, 5] ![0, 1, 0, 0] ![0, 0, 1, 0] ![7, 0, 0, 1] :
        ColorMatrix ℝ)).det ≠ 0 ∧
      translation (color_matrix_invert
        (ofRows ![2, 0, 0, 5] ![0, 1, 0, 0] ![0, 0, 1, 0] ![7, 0, 0, 1] :
          ColorMatrix ℝ)) = (fun _ => 0) :=
  have h : (linearPart (ofRows ![2, 0, 0, 5] ![0, 1, 0, 0] ![0, 0, 1, 0] ![7, 0, 0, 1] :
      ColorMatrix ℝ)).det ≠ 0 := by
    rw [Matrix.det_fin_three]
    simp [linearPart, ofRows, castSucc_two]
  ⟨h, (invert_spec _ h).2.2.2.1⟩

/-- C4: for all `Kr`, `Kb` with `Kr ≠ 1`, `Kb ≠ 1` and `Kg = 1 - Kr - Kb ≠ 0`,
`color_matrix_RGB_to_YCbCr` followed by `color_matrix_YCbCr_to_RGB` on the
identity matrix gives the identity matrix again, and so do the two calls in
the opposite order. -/
theorem ycbcr_rgb_inverse (Kr Kb : ℝ) (hr : Kr ≠ 1) (hb : Kb ≠ 1)
    (hg : 1 - Kr - Kb ≠ 0) :
    color_matrix_YCbCr_to_RGB
        (color_matrix_RGB_to_YCbCr color_matrix_set_identity Kr Kb) Kr Kb =
          color_matrix_set_identity ∧
      color_matrix_RGB_to_YCbCr
        (color_matrix_YCbCr_to_RGB color_matrix_set_identity Kr Kb) Kr Kb =
          color_matrix_set_identity := by
  constructor
  · rw [color_matrix_RGB_to_YCbCr, multiply_set_identity_right, color_matrix_YCbCr_to_RGB]
    exact YCbCr_k_mul_RGB_k Kr Kb hr hb hg
  · rw [color_matrix_YCbCr_to_RGB, multiply_set_identity_right, color_matrix_RGB_to_YCbCr]
    exact RGB_k_mul_YCbCr_k Kr Kb hr hb hg

/-- Witness of C4: the BT.601 coefficients `Kr = 0.299`, `Kb = 0.114`. -/
theorem ycbcr_rgb_inverse_witness :
    ((0.299 : ℝ) ≠ 1 ∧ (0.114 : ℝ) ≠ 1 ∧ (1 : ℝ) - 0.299 - 0.114 ≠ 0) ∧
      color_matrix_YCbCr_to_RGB
        (color_matrix_RGB_to_YCbCr color_matrix_set_identity (0.299 : ℝ) 0.114)
        0.299 0.114 = color_matrix_set_identity :=
  ⟨⟨by norm_num, by norm_num, by norm_num⟩,
    (ycbcr_rgb_inverse 0.299 0.114 (by norm_num) (by norm_num) (by norm_num)).1⟩

/-- C5: for every `Kr`, `Kb` with `Kr ≠ 1` and `Kb ≠ 1`,
`color_matrix_RGB_to_YCbCr` on the identity matrix gives the ITU-R
colour-difference matrix: on every `(R, G, B)` it yields
`Y = Kr R + Kg G + Kb B`, `Cb = (B - Y) / (2 (1 - Kb))` and
`Cr = (R - Y) / (2 (1 - Kr))` with `Kg = 1 - Kr - Kb`; its row 0 is
`[Kr, Kg, Kb, 0]` and its translation column is zero. -/
theorem rgb_to_ycbcr_spec (Kr Kb : ℝ) (hr : Kr ≠ 1) (hb : Kb ≠ 1) (R G B : ℝ) :
    color_matrix_apply (color_matrix_RGB_to_YCbCr color_matrix_set_identity Kr Kb)
        ![R, G, B] =
        ![Kr * R + (1 - Kr - Kb) * G + Kb * B,
          (B - (Kr * R + (1 - Kr - Kb) * G + Kb * B)) / (2 * (1 - Kb)),
          (R - (Kr * R + (1 - Kr - Kb) * G + Kb * B)) / (2 * (1 - Kr))] ∧
      color_matrix_RGB_to_YCbCr color_matrix_set_identity Kr Kb 0 =
        ![Kr, 1 - Kr - Kb, Kb, 0] ∧
      translation (color_matrix_RGB_to_YCbCr color_matrix_set_identity Kr Kb) =
        (fun _ => 0) := by
  have hr1 : 1 - Kr ≠ 0 := sub_ne_zero.mpr (Ne.symm hr)
  have hb1 : 1 - Kb ≠ 0 := sub_ne_zero.mpr (Ne.symm hb)
  have h1 : (1.0 : ℝ) = 1 := by norm_num
  rw [color_matrix_RGB_to_YCbCr, multiply_set_identity_right]
  refine ⟨?_, ?_, ?_⟩
  · funext i
    fin_cases i <;>
      simp [color_matrix_apply, RGB_to_YCbCr_k, ofRows, h1, castSucc_two] <;>
      first
        | ring1
        | (field_simp; ring1)
  · funext j
    fin_cases j <;> simp [RGB_to_YCbCr_k, ofRows, h1]
  · funext i
    fin_cases i <;> simp [translation, RGB_to_YCbCr_k, ofRows, castSucc_two]

/-- Witness of C5: the BT.601 coefficients, on the colour `(1, 1, 1)`. -/
theorem rgb_to_ycbcr_spec_witness :
    ((0.299 : ℝ) ≠ 1 ∧ (0.114 : ℝ) ≠ 1) ∧
      color_matrix_RGB_to_YCbCr color_matrix_set_identity (0.299 : ℝ) 0.114 0 =
        ![0.299, 1 - 0.299 - 0.114, 0.114, 0] :=
  ⟨⟨by norm_num, by norm_num⟩,
    (rgb_to_ycbcr_spec 0.299 0.114 (by norm_num) (by norm_num) 1 1 1).2.1⟩

/-! ## Properties of the transfer functions -/

/-- The ninth power of the knee `0.0812 / 4.5` of `unapply` is below the
twentieth power of `0.0812 + 0.099`. -/
theorem knee_pow_lt : ((0.0812 : ℝ) / 4.500) ^ 9 < (0.1802 : ℝ) ^ 20 := by norm_num

/-- The ninth power of `0.02` is below the twentieth power of `0.1802`. -/
theorem sample_pow_lt : (0.02 : ℝ) ^ 9 < (0.1802 : ℝ) ^ 20 := by norm_num

/-- The exponent `1 / 0.45` is `20 / 9`. -/
theorem rpow_inv_gamma_pow (x : ℝ) (hx : 0 ≤ x) :
    (x ^ ((1 : ℝ) / 0.4500)) ^ 9 = x ^ 20 := by
  rw [← Real.rpow_natCast (x ^ ((1 : ℝ) / 0.4500)) 9, ← Real.rpow_mul hx,
    ← Real.rpow_natCast x 20]
  norm_num

/-- The exponent `0.45` is `9 / 20`. -/
theorem rpow_gamma_pow (x : ℝ) (hx : 0 ≤ x) : (x ^ (0.4500 : ℝ)) ^ 20 = x ^ 9 := by
  rw [← Real.rpow_natCast (x ^ (0.4500 : ℝ)) 20, ← Real.rpow_mul hx,
    ← Real.rpow_natCast x 9]
  norm_num

/-- The power `0.45` undoes the power `1 / 0.45` on non-negative reals. -/
theorem rpow_inv_gamma_gamma (x : ℝ) (hx : 0 ≤ x) :
    (x ^ ((1 : ℝ) / 0.4500)) ^ (0.4500 : ℝ) = x := by
  rw [← Real.rpow_mul hx]
  norm_num

/-- The power branch of `apply` lands in the power branch of `unapply`. -/
theorem apply_upper_not_lt (v : ℝ) (hv : 0.0812 ≤ v) :
    ¬ (v + 0.099) ^ ((1 : ℝ) / 0.4500) < 0.0812 / 4.500 := by
  intro h
  have hx : (0 : ℝ) ≤ v + 0.099 := by linarith
  have hb : 0 ≤ (v + 0.099) ^ ((1 : ℝ) / 0.4500) := Real.rpow_nonneg hx _
  have h9 := pow_lt_pow_left₀ h hb (by norm_num : (9 : ℕ) ≠ 0)
  rw [rpow_inv_gamma_pow _ hx] at h9
  have h20 : (0.1802 : ℝ) ^ 20 ≤ (v + 0.099) ^ 20 :=
    pow_le_pow_left₀ (by norm_num) (by linarith) 20
  have := knee_pow_lt
  linarith

/-- The power `0.02 ^ 0.45` is below `0.1802`. -/
theorem sample_rpow_lt : (0.02 : ℝ) ^ (0.4500 : ℝ) < 0.1802 := by
  by_contra h
  have h20 : (0.1802 : ℝ) ^ 20 ≤ ((0.02 : ℝ) ^ (0.4500 : ℝ)) ^ 20 :=
    pow_le_pow_left₀ (by norm_num) (not_lt.mp h) 20
  rw [rpow_gamma_pow _ (by norm_num)] at h20
  have := sample_pow_lt
  linarith

/-- C6: for every colour `v` with all components in `[0, 1]`, the breakpoint
`0.0812` included, `color_transfer_function_unapply` undoes
`color_transfer_function_apply`, over the reals with the real power. -/
theorem transfer_unapply_apply (v : Color ℝ) (hv : ∀ i, 0 ≤ v i ∧ v i ≤ 1) :
    color_transfer_function_unapply (fun x y => x ^ y)
      (color_transfer_function_apply (fun x y => x ^ y) v) = v := by
  funext i
  by_cases h : v i < 0.0812
  · have h2 : v i / 4.500 < 0.0812 / 4.500 :=
      div_lt_div_of_pos_right h (by norm_num)
    simp only [color_transfer_function_unapply, color_transfer_function_apply, if_pos h,
      if_pos h2]
    exact div_mul_cancel₀ _ (by norm_num)
  · have h2 := apply_upper_not_lt (v i) (not_lt.mp h)
    simp only [color_transfer_function_unapply, color_transfer_function_apply, if_neg h,
      if_neg h2]
    rw [rpow_inv_gamma_gamma _ (add_nonneg (hv i).1 (by norm_num))]
    ring

/-- Witness of C6: a colour with a component at the breakpoint `0.0812` and
components at both ends of `[0, 1]`. -/
theorem transfer_unapply_apply_witness :
    (∀ i, 0 ≤ (![0.0812, 0, 1] : Color ℝ) i ∧ (![0.0812, 0, 1] : Color ℝ) i ≤ 1) ∧
      color_transfer_function_unapply (fun x y => x ^ y)
        (color_transfer_function_apply (fun x y => x ^ y) (![0.0812, 0, 1] : Color ℝ)) =
          ![0.0812, 0, 1] :=
  have h : ∀ i, 0 ≤ (![0.0812, 0, 1] : Color ℝ) i ∧ (![0.0812, 0, 1] : Color ℝ) i ≤ 1 := by
    intro i
    fin_cases i <;> norm_num
  ⟨h, transfer_unapply_apply _ h⟩

/-- C7 fails on the code at `w = 0.02`, a value of `[0, 1]`: `unapply` takes
its power branch there, the result `0.02 ^ 0.45 - 0.099` is below `0.0812`, so
`apply` takes its linear branch and returns
`(0.02 ^ 0.45 - 0.099) / 4.5`, which is below `0.02`. -/
theorem transfer_apply_unapply_sample :
    color_transfer_function_apply (fun x y => x ^ y)
        (color_transfer_function_unapply (fun x y => x ^ y) (fun _ => (0.02 : ℝ))) =
        (fun _ => ((0.02 : ℝ) ^ (0.4500 : ℝ) - 0.099) / 4.500) ∧
      ((0.02 : ℝ) ^ (0.4500 : ℝ) - 0.099) / 4.500 < 0.02 ∧
      color_transfer_function_apply (fun x y => x ^ y)
        (color_transfer_function_unapply (fun x y => x ^ y) (fun _ => (0.02 : ℝ))) ≠
        (fun _ => (0.02 : ℝ)) := by
  have hs := sample_rpow_lt
  have h1 : ¬ (0.02 : ℝ) < 0.0812 / 4.500 := by norm_num
  have h2 : (0.02 : ℝ) ^ (0.4500 : ℝ) - 0.099 < 0.0812 := by linarith
  have hlt : ((0.02 : ℝ) ^ (0.4500 : ℝ) - 0.099) / 4.500 < 0.02 := by
    rw [div_lt_iff₀ (by norm_num)]
    norm_num at h2 ⊢
    linarith
  have heq : color_transfer_function_apply (fun x y => x ^ y)
      (color_transfer_function_unapply (fun x y => x ^ y) (fun _ => (0.02 : ℝ))) =
      (fun _ => ((0.02 : ℝ) ^ (0.4500 : ℝ) - 0.099) / 4.500) := by
    funext i
    simp only [color_transfer_function_unapply, color_transfer_function_apply, if_neg h1,
      if_pos h2]
  refine ⟨heq, hlt, ?_⟩
  rw [heq]
  intro hc
  have := congrFun hc 0
  linarith

/-! ## Properties of the builders, the clamp and the rounding -/

/-- Scaling the components: every component of the result of `m` is
multiplied by its factor. -/
theorem apply_scale_components (m : ColorMatrix ℝ) (a1 a2 a3 : ℝ) (p : Color ℝ) :
    color_matrix_apply (color_matrix_scale_components m a1 a2 a3) p =
      ![a1 * color_matrix_apply m p 0, a2 * color_matrix_apply m p 1,
        a3 * color_matrix_apply m p 2] := by
  funext i
  fin_cases i <;>
    simp [color_matrix_apply, color_matrix_scale_components, multiply_entry, setEntry,
      color_matrix_set_identity, castSucc_two] <;>
    ring

/-- Offsetting the components of a matrix whose row 3 is `[0, 0, 0, 1]`:
the offset is added to every component of the result of `m`. -/
theorem apply_offset_components (m : ColorMatrix ℝ) (hm : Row3Identity m)
    (a1 a2 a3 : ℝ) (p : Color ℝ) :
    color_matrix_apply (color_matrix_offset_components m a1 a2 a3) p =
      ![color_matrix_apply m p 0 + a1, color_matrix_apply m p 1 + a2,
        color_matrix_apply m p 2 + a3] := by
  obtain ⟨h0, h1, h2, h3⟩ := hm
  funext i
  fin_cases i <;>
    simp [color_matrix_apply, color_matrix_offset_components, multiply_entry, setEntry,
      color_matrix_set_identity, castSucc_two, h0, h1, h2, h3] <;>
    ring

/-- Scaling the components keeps row 3 equal to `[0, 0, 0, 1]`. -/
theorem row3_scale_components (m : ColorMatrix ℝ) (hm : Row3Identity m) (a1 a2 a3 : ℝ) :
    Row3Identity (color_matrix_scale_components m a1 a2 a3) := by
  obtain ⟨h0, h1, h2, h3⟩ := hm
  simp [Row3Identity, color_matrix_scale_components, multiply_entry, setEntry,
    color_matrix_set_identity, h0, h1, h2, h3]

/-- The matrix of `color_matrix_RGB_to_YCbCr` has row 3 equal to
`[0, 0, 0, 1]`. -/
theorem row3_RGB_to_YCbCr_k (Kr Kb : ℝ) : Row3Identity (RGB_to_YCbCr_k Kr Kb) :=
  ⟨rfl, rfl, rfl, rfl⟩

/-- The BT.601 RGB to YUV matrix on a colour: luma scaled to `16..235`,
colour differences scaled around 128. -/
theorem apply_rgb_to_yuv_601 (c : Color ℝ) :
    color_matrix_apply color_matrix_build_rgb_to_yuv_601 c =
      ![16 + 219 * (0.299 * c 0 + 0.587 * c 1 + 0.114 * c 2),
        128 + 224 * ((c 2 - (0.299 * c 0 + 0.587 * c 1 + 0.114 * c 2)) / 1.772),
        128 + 224 * ((c 0 - (0.299 * c 0 + 0.587 * c 1 + 0.114 * c 2)) / 1.402)] := by
  have hk : Row3Identity (color_matrix_scale_components
      (RGB_to_YCbCr_k (0.2990 : ℝ) 0.1140) 219.0 224.0 224.0) :=
    row3_scale_components _ (row3_RGB_to_YCbCr_k _ _) _ _ _
  rw [color_matrix_build_rgb_to_yuv_601]
  simp only [color_matrix_RGB_to_YCbCr, multiply_set_identity_right]
  rw [apply_offset_components _ hk, apply_scale_components]
  funext i
  fin_cases i <;>
    simp [color_matrix_apply, RGB_to_YCbCr_k, ofRows, castSucc_two] <;>
    norm_num <;>
    ring

/-- The clamp to `[0, 1]` lands in `[0, 1]`. -/
theorem CLAMP_unit (x : ℝ) : 0 ≤ CLAMP x 0.0 1.0 ∧ CLAMP x 0.0 1.0 ≤ 1 := by
  unfold CLAMP
  split_ifs with h1 h2
  · norm_num
  · norm_num
  · norm_num at h1 h2
    exact ⟨h2, h1⟩

/-- Every component of a clamped colour is in `[0, 1]`. -/
theorem color_gamut_clamp_unit (c : Color ℝ) (i : Fin 3) :
    0 ≤ color_gamut_clamp c i ∧ color_gamut_clamp c i ≤ 1 := by
  fin_cases i <;> simp [color_gamut_clamp] <;> exact CLAMP_unit _

/-- The value of `rint` stays between integer bounds of its argument. -/
theorem rint_bounds (x : ℝ) (a b : ℤ) (ha : (a : ℝ) ≤ x) (hb : x ≤ (b : ℝ)) :
    a ≤ rint x ∧ rint x ≤ b := by
  have hfa : a ≤ ⌊x⌋ := Int.le_floor.mpr ha
  have hfb : ⌊x⌋ ≤ b := by
    have h : (⌊x⌋ : ℝ) ≤ b := (Int.floor_le x).trans hb
    exact_mod_cast h
  have hup : 0 < x - (⌊x⌋ : ℝ) → ⌊x⌋ + 1 ≤ b := by
    intro hpos
    have : (⌊x⌋ : ℝ) < b := by linarith
    have : ⌊x⌋ < b := by exact_mod_cast this
    omega
  unfold rint
  simp only
  split_ifs with h1 h2 h3
  · exact ⟨hfa, hfb⟩
  · exact ⟨by omega, hup (by linarith)⟩
  · exact ⟨hfa, hfb⟩
  · exact ⟨by omega, hup (by linarith)⟩

/-- A value in `[0, 255]` is stored unchanged. -/
theorem toByte_of_range (n : ℤ) (h0 : 0 ≤ n) (h1 : n ≤ 255) : (toByte n : ℤ) = n := by
  unfold toByte
  omega

/-- After the clamp, the BT.601 RGB to YUV matrix gives values in `[16, 240]`. -/
theorem yuv_of_clamped_bounds (c : Color ℝ) (i : Fin 3) :
    (16 : ℝ) ≤ color_matrix_apply color_matrix_build_rgb_to_yuv_601 (color_gamut_clamp c) i ∧
      color_matrix_apply color_matrix_build_rgb_to_yuv_601 (color_gamut_clamp c) i ≤ 240 := by
  obtain ⟨l0, u0⟩ := color_gamut_clamp_unit c 0
  obtain ⟨l1, u1⟩ := color_gamut_clamp_unit c 1
  obtain ⟨l2, u2⟩ := color_gamut_clamp_unit c 2
  rw [apply_rgb_to_yuv_601]
  generalize color_gamut_clamp c 0 = r at *
  generalize color_gamut_clamp c 1 = g at *
  generalize color_gamut_clamp c 2 = b at *
  fin_cases i
  · simp
    constructor <;> norm_num <;> linarith
  · simp
    constructor <;> norm_num <;> linarith
  · simp
    constructor <;> norm_num <;> linarith

/-! ## Properties of the table build -/

/-- For bytes `u` and `v` the flat index is `y * 65536 + u * 256 + v`. -/
theorem flatIndex_eq (y u v : ℕ) (hu : u < 256) (hv : v < 256) :
    flatIndex y u v = y * 0x10000 + u * 0x100 + v := by
  unfold flatIndex
  have h1 : y <<< 16 ||| u <<< 8 = 2 ^ 8 * (2 ^ 8 * y + u) := by
    rw [Nat.shiftLeft_eq, Nat.shiftLeft_eq]
    have hlt : u * 2 ^ 8 < 2 ^ 16 := by omega
    have := Nat.mul_add_lt_is_or hlt y
    rw [Nat.mul_comm y (2 ^ 16), ← this]
    ring
  rw [h1, ← Nat.mul_add_lt_is_or (by simpa using hv) _]
  ring

/-- A fold of steps that each write the expected bytes to the offsets chosen
by `W` and leave the others alone: an offset chosen for some element holds its
expected byte at the end, any other offset holds what it held at the start. -/
theorem foldl_written {α : Type} (g : Table → α → Table) (W : α → ℕ → Prop) (E : Table)
    (xs : List α)
    (hg : ∀ a ∈ xs, ∀ (t : Table) (k : ℕ),
      (W a k → g t a k = E k) ∧ (¬ W a k → g t a k = t k))
    (t : Table) (k : ℕ) :
    ((∃ a ∈ xs, W a k) → xs.foldl g t k = E k) ∧
      ((¬ ∃ a ∈ xs, W a k) → xs.foldl g t k = t k) := by
  induction xs generalizing t with
  | nil => simp
  | cons a xs ih =>
    have hga := hg a (List.mem_cons_self a xs) t k
    have ih2 := ih (fun b hb => hg b (List.mem_cons_of_mem a hb)) (g t a)
    rw [List.foldl_cons]
    by_cases hex : ∃ b ∈ xs, W b k
    · constructor
      · intro _
        exact ih2.1 hex
      · intro hno
        obtain ⟨b, hb, hw⟩ := hex
        exact absurd ⟨b, List.mem_cons_of_mem a hb, hw⟩ hno
    · rw [ih2.2 hex]
      constructor
      · rintro ⟨b, hb, hw⟩
        rcases List.mem_cons.mp hb with rfl | hb2
        · exact hga.1 hw
        · exact absurd ⟨b, hb2, hw⟩ hex
      · intro hno
        exact hga.2 (fun hw => hno ⟨a, List.mem_cons_self a xs, hw⟩)

/-- The loop body for a triple of bytes writes the expected bytes to its three
offsets and leaves the other offsets alone. -/
theorem table_body_written (pow : ℝ → ℝ → ℝ) (y u v : ℕ) (hy : y < 256) (hu : u < 256)
    (hv : v < 256) (t : Table) (k : ℕ) :
    (WrittenFor y u v k → table_body pow t y u v k = expectedByte pow k) ∧
      (¬ WrittenFor y u v k → table_body pow t y u v k = t k) := by
  have hidx := flatIndex_eq y u v hu hv
  unfold WrittenFor
  simp only [table_body, store, COG_OFFSET, hidx]
  constructor
  · rintro ⟨hk, hmod⟩
    have hy' : k % 0x1000000 / 0x10000 = y := by omega
    have hu' : k / 0x100 % 0x100 = u := by omega
    have hv' : k % 0x100 = v := by omega
    have hc : k / 0x1000000 = 0 ∨ k / 0x1000000 = 1 ∨ k / 0x1000000 = 2 := by omega
    unfold expectedByte
    rw [hy', hu', hv']
    rcases hc with hc | hc | hc
    · have e2 : ¬ k = 0 + 2 * 0x1000000 + (y * 0x10000 + u * 0x100 + v) := by omega
      have e1 : ¬ k = 0 + 1 * 0x1000000 + (y * 0x10000 + u * 0x100 + v) := by omega
      have e0 : k = 0 + 0 * 0x1000000 + (y * 0x10000 + u * 0x100 + v) := by omega
      rw [if_neg e2, if_neg e1, if_pos e0]
      congr 3
      exact Fin.ext (by simp [hc])
    · have e2 : ¬ k = 0 + 2 * 0x1000000 + (y * 0x10000 + u * 0x100 + v) := by omega
      have e1 : k = 0 + 1 * 0x1000000 + (y * 0x10000 + u * 0x100 + v) := by omega
      rw [if_neg e2, if_pos e1]
      congr 3
      exact Fin.ext (by simp [hc])
    · have e2 : k = 0 + 2 * 0x1000000 + (y * 0x10000 + u * 0x100 + v) := by omega
      rw [if_pos e2]
      congr 3
      exact Fin.ext (by simp [hc])
  · intro hno
    have e2 : ¬ k = 0 + 2 * 0x1000000 + (y * 0x10000 + u * 0x100 + v) := by
      intro h
      exact hno ⟨by omega, by omega⟩
    have e1 : ¬ k = 0 + 1 * 0x1000000 + (y * 0x10000 + u * 0x100 + v) := by
      intro h
      exact hno ⟨by omega, by omega⟩
    have e0 : ¬ k = 0 + 0 * 0x1000000 + (y * 0x10000 + u * 0x100 + v) := by
      intro h
      exact hno ⟨by omega, by omega⟩
    rw [if_neg e2, if_neg e1, if_neg e0]

/-- Every offset below `3 * 0x1000000` is one of the offsets written for the
triple of bytes it decodes to. -/
theorem writtenFor_decode (k : ℕ) (hk : k < 3 * 0x1000000) :
    k % 0x1000000 / 0x10000 < 256 ∧ k / 0x100 % 0x100 < 256 ∧ k % 0x100 < 256 ∧
      WrittenFor (k % 0x1000000 / 0x10000) (k / 0x100 % 0x100) (k % 0x100) k := by
  unfold WrittenFor
  omega

/-- The table after the loops over any list of byte triples: the offsets
written for a listed triple hold their expected bytes, the others hold what
the memory held before. -/
theorem fill_table_in_order_written (pow : ℝ → ℝ → ℝ) (order : List (ℕ × ℕ × ℕ))
    (hbytes : ∀ x ∈ order, x.1 < 256 ∧ x.2.1 < 256 ∧ x.2.2 < 256) (t0 : Table) (k : ℕ) :
    ((∃ x ∈ order, WrittenFor x.1 x.2.1 x.2.2 k) →
        fill_table_in_order pow order t0 k = expectedByte pow k) ∧
      ((¬ ∃ x ∈ order, WrittenFor x.1 x.2.1 x.2.2 k) →
        fill_table_in_order pow order t0 k = t0 k) := by
  have hg : ∀ x ∈ order, ∀ (t : Table) (k : ℕ),
      (WrittenFor x.1 x.2.1 x.2.2 k →
          table_body pow t x.1 x.2.1 x.2.2 k = expectedByte pow k) ∧
        (¬ WrittenFor x.1 x.2.1 x.2.2 k → table_body pow t x.1 x.2.1 x.2.2 k = t k) :=
    fun x hx t k =>
      table_body_written pow x.1 x.2.1 x.2.2 (hbytes x hx).1 (hbytes x hx).2.1
        (hbytes x hx).2.2 t k
  exact foldl_written (fun t (x : ℕ × ℕ × ℕ) => table_body pow t x.1 x.2.1 x.2.2)
    (fun x k => WrittenFor x.1 x.2.1 x.2.2 k) (expectedByte pow) order hg t0 k

/-- The table after the three nested loops: every offset below
`3 * 0x1000000` holds its expected byte, whatever the memory held before, and
the offsets from `3 * 0x1000000` on are untouched. -/
theorem fill_table_eq (pow : ℝ → ℝ → ℝ) (t0 : Table) (k : ℕ) :
    fill_table pow t0 k = if k < 3 * 0x1000000 then expectedByte pow k else t0 k := by
  have inner : ∀ y < 256, ∀ u ∈ List.range 256, ∀ (t : Table) (k : ℕ),
      ((∃ v ∈ List.range 256, WrittenFor y u v k) →
          (List.range 256).foldl (fun t v => table_body pow t y u v) t k =
            expectedByte pow k) ∧
        ((¬ ∃ v ∈ List.range 256, WrittenFor y u v k) →
          (List.range 256).foldl (fun t v => table_body pow t y u v) t k = t k) :=
    fun y hy u hu t k =>
      foldl_written (fun t v => table_body pow t y u v) (fun v k => WrittenFor y u v k)
        (expectedByte pow) (List.range 256)
        (fun v hv t k =>
          table_body_written pow y u v hy (List.mem_range.mp hu) (List.mem_range.mp hv) t k)
        t k
  have middle : ∀ y ∈ List.range 256, ∀ (t : Table) (k : ℕ),
      ((∃ u ∈ List.range 256, ∃ v ∈ List.range 256, WrittenFor y u v k) →
          (List.range 256).foldl (fun t u =>
            (List.range 256).foldl (fun t v => table_body pow t y u v) t) t k =
            expectedByte pow k) ∧
        ((¬ ∃ u ∈ List.range 256, ∃ v ∈ List.range 256, WrittenFor y u v k) →
          (List.range 256).foldl (fun t u =>
            (List.range 256).foldl (fun t v => table_body pow t y u v) t) t k = t k) :=
    fun y hy t k =>
      foldl_written
        (fun t u => (List.range 256).foldl (fun t v => table_body pow t y u v) t)
        (fun u k => ∃ v ∈ List.range 256, WrittenFor y u v k)
        (expectedByte pow) (List.range 256) (inner y (List.mem_range.mp hy)) t k
  have outer := foldl_written
    (fun t y => (List.range 256).foldl (fun t u =>
      (List.range 256).foldl (fun t v => table_body pow t y u v) t) t)
    (fun y k => ∃ u ∈ List.range 256, ∃ v ∈ List.range 256, WrittenFor y u v k)
    (expectedByte pow) (List.range 256) middle t0 k
  unfold fill_table
  split_ifs with hk
  · obtain ⟨hy, hu, hv, hw⟩ := writtenFor_decode k hk
    exact outer.1 ⟨_, List.mem_range.mpr hy, _, List.mem_range.mpr hu, _,
      List.mem_range.mpr hv, hw⟩
  · refine outer.2 ?_
    rintro ⟨y, _, u, _, v, _, hw⟩
    exact hk hw.1

/-- The triples of `referenceOrder` are the triples of bytes. -/
theorem mem_referenceOrder (x : ℕ × ℕ × ℕ) :
    x ∈ referenceOrder ↔ x.1 < 256 ∧ x.2.1 < 256 ∧ x.2.2 < 256 := by
  obtain ⟨y, u, v⟩ := x
  simp only [referenceOrder, List.mem_flatMap, List.mem_map, List.mem_range, Prod.mk.injEq]
  constructor
  · rintro ⟨y', hy, u', hu, v', hv, rfl, rfl, rfl⟩
    exact ⟨hy, hu, hv⟩
  · rintro ⟨hy, hu, hv⟩
    exact ⟨y, hy, u, hu, v, hv, rfl, rfl, rfl⟩

/-- The table built over a list that holds exactly the triples of bytes, in
any order and any number of times, is the table of the nested loops. -/
theorem fill_table_in_order_eq (pow : ℝ → ℝ → ℝ) (order : List (ℕ × ℕ × ℕ))
    (hmem : ∀ x, x ∈ order ↔ x ∈ referenceOrder) (t0 : Table) :
    fill_table_in_order pow order t0 = fill_table pow t0 := by
  funext k
  have hbytes : ∀ x ∈ order, x.1 < 256 ∧ x.2.1 < 256 ∧ x.2.2 < 256 :=
    fun x hx => (mem_referenceOrder x).mp ((hmem x).mp hx)
  have h := fill_table_in_order_written pow order hbytes t0 k
  rw [fill_table_eq]
  split_ifs with hk
  · obtain ⟨hy, hu, hv, hw⟩ := writtenFor_decode k hk
    exact h.1 ⟨(_, _, _), (hmem _).mpr ((mem_referenceOrder _).mpr ⟨hy, hu, hv⟩), hw⟩
  · refine h.2 ?_
    rintro ⟨x, _, hw⟩
    exact hk hw.1

/-- The rounded value of every table colour is in `[16, 240]`. -/
theorem rint_table_color_bounds (pow : ℝ → ℝ → ℝ) (y u v : ℕ) (c : Fin 3) :
    16 ≤ rint (table_color pow y u v c) ∧ rint (table_color pow y u v c) ≤ 240 := by
  have h := yuv_of_clamped_bounds
    (color_transfer_function_unapply pow
      (color_matrix_apply color_matrix_build_XYZ_to_rgb_dell
        (color_matrix_apply color_matrix_build_rgb_to_XYZ_601
          (color_transfer_function_apply pow
            (color_gamut_clamp
              (color_matrix_apply color_matrix_build_yuv_to_rgb_601
                ![(y : ℝ), (u : ℝ), (v : ℝ)])))))) c
  exact rint_bounds _ 16 240 (by exact_mod_cast h.1) (by exact_mod_cast h.2)

/-- The call on the null state builds the table with the loops and keeps it. -/
theorem get_color_transform_table_none (pow : ℝ → ℝ → ℝ) (fresh : Table) :
    get_color_transform_table pow fresh none =
      (some (fill_table pow fresh), fill_table pow fresh) := rfl

/-- The colour of the loop body is the composition of its eight stages. -/
theorem table_color_eq_comp (pow : ℝ → ℝ → ℝ) (y u v : ℕ) :
    table_color pow y u v =
      (color_matrix_apply color_matrix_build_rgb_to_yuv_601 ∘ color_gamut_clamp ∘
        color_transfer_function_unapply pow ∘
        color_matrix_apply color_matrix_build_XYZ_to_rgb_dell ∘
        color_matrix_apply color_matrix_build_rgb_to_XYZ_601 ∘
        color_transfer_function_apply pow ∘ color_gamut_clamp ∘
        color_matrix_apply color_matrix_build_yuv_to_rgb_601)
          ![(y : ℝ), (u : ℝ), (v : ℝ)] := rfl

/-- The rounded value of every table colour is stored without change. -/
theorem table_value_range_aux (pow : ℝ → ℝ → ℝ) (y u v : ℕ) (c : Fin 3) :
    (toByte (rint (table_color pow y u v c)) : ℤ) = rint (table_color pow y u v c) := by
  obtain ⟨hl, hu⟩ := rint_table_color_bounds pow y u v c
  exact toByte_of_range _ (by omega) (by omega)

/-- The byte at the offset of channel `c` and the triple of bytes
`(y, u, v)`, after the loops. -/
theorem fill_table_at (pow : ℝ → ℝ → ℝ) (t0 : Table) (c : Fin 3) (y u v : ℕ)
    (hy : y < 256) (hu : u < 256) (hv : v < 256) :
    fill_table pow t0 (c.val * 0x1000000 + flatIndex y u v) =
      toByte (rint (table_color pow y u v c)) := by
  have hc := c.isLt
  rw [fill_table_eq, flatIndex_eq y u v hu hv, if_pos (by omega)]
  unfold expectedByte
  have hy' : (c.val * 0x1000000 + (y * 0x10000 + u * 0x100 + v)) % 0x1000000 / 0x10000 = y := by
    omega
  have hu' : (c.val * 0x1000000 + (y * 0x10000 + u * 0x100 + v)) / 0x100 % 0x100 = u := by
    omega
  have hv' : (c.val * 0x1000000 + (y * 0x10000 + u * 0x100 + v)) % 0x100 = v := by omega
  have hc' : (c.val * 0x1000000 + (y * 0x10000 + u * 0x100 + v)) / 0x1000000 % 3 = c.val := by
    omega
  simp only [hy', hu', hv', hc']

/-- C8: for every input triple `(Y, U, V)`, so in particular for every triple
of bytes, and each of the three output channels, the value of the table
pipeline rounded at the store lies in `[0, 255]`, and its conversion to a byte
is the value itself: the store does not wrap.  This holds whatever the power
function returns. -/
theorem table_value_byte_range (pow : ℝ → ℝ → ℝ) (y u v : ℕ) (c : Fin 3) :
    0 ≤ rint (table_color pow y u v c) ∧ rint (table_color pow y u v c) ≤ 255 ∧
      (toByte (rint (table_color pow y u v c)) : ℤ) = rint (table_color pow y u v c) := by
  obtain ⟨hl, hu⟩ := rint_table_color_bounds pow y u v c
  exact ⟨by omega, by omega, toByte_of_range _ (by omega) (by omega)⟩

/-- C9: after `get_color_transform_table` has built the table (from the null
state, on any memory), for every channel `c` and all bytes `Y`, `U`, `V` the
byte at offset `c * 0x1000000 + ((Y << 16) | (U << 8) | V)` is the rounded
component `c` of
`rgb_to_yuv_601 ∘ clamp ∘ unapply ∘ dell_XYZ_to_rgb ∘ rgb_to_XYZ_601 ∘ apply ∘ clamp ∘ yuv_to_rgb_601`
on the raw colour `(Y, U, V)`; every offset of the `3 * 256^3` bytes is such
an offset, so every entry is written and holds the value of its own triple and
channel. -/
theorem table_entry_spec (pow : ℝ → ℝ → ℝ) (fresh : Table) (c : Fin 3) (Y U V : ℕ)
    (hY : Y < 256) (hU : U < 256) (hV : V < 256) :
    ((get_color_transform_table pow fresh none).2
        (c.val * 0x1000000 + ((Y <<< 16) ||| (U <<< 8) ||| V)) : ℤ) =
        rint ((color_matrix_apply color_matrix_build_rgb_to_yuv_601 ∘ color_gamut_clamp ∘
          color_transfer_function_unapply pow ∘
          color_matrix_apply color_matrix_build_XYZ_to_rgb_dell ∘
          color_matrix_apply color_matrix_build_rgb_to_XYZ_601 ∘
          color_transfer_function_apply pow ∘ color_gamut_clamp ∘
          color_matrix_apply color_matrix_build_yuv_to_rgb_601)
            ![(Y : ℝ), (U : ℝ), (V : ℝ)] c) ∧
      ∀ k < 3 * 0x1000000, ∃ (c' : Fin 3) (Y' U' V' : ℕ),
        Y' < 256 ∧ U' < 256 ∧ V' < 256 ∧
          k = c'.val * 0x1000000 + ((Y' <<< 16) ||| (U' <<< 8) ||| V') := by
  constructor
  · have h := fill_table_at pow fresh c Y U V hY hU hV
    unfold flatIndex at h
    rw [get_color_transform_table_none, ← table_color_eq_comp]
    simp only
    rw [h]
    exact table_value_range_aux pow Y U V c
  · intro k hk
    refine ⟨⟨k / 0x1000000, by omega⟩, k % 0x1000000 / 0x10000, k / 0x100 % 0x100,
      k % 0x100, by omega, by omega, by omega, ?_⟩
    have h := flatIndex_eq (k % 0x1000000 / 0x10000) (k / 0x100 % 0x100) (k % 0x100)
      (by omega) (by omega)
    unfold flatIndex at h
    rw [h]
    simp only
    omega

/-- Witness of C9: the Y-channel entry of studio black `(16, 128, 128)` in a
table built on zeroed memory with the real power. -/
theorem table_entry_spec_witness :
    ((16 : ℕ) < 256 ∧ (128 : ℕ) < 256) ∧
      ((get_color_transform_table (fun x y : ℝ => x ^ y) (fun _ => 0) none).2
        ((0 : Fin 3).val * 0x1000000 + ((16 <<< 16) ||| (128 <<< 8) ||| 128)) : ℤ) =
        rint ((color_matrix_apply color_matrix_build_rgb_to_yuv_601 ∘ color_gamut_clamp ∘
          color_transfer_function_unapply (fun x y : ℝ => x ^ y) ∘
          color_matrix_apply color_matrix_build_XYZ_to_rgb_dell ∘
          color_matrix_apply color_matrix_build_rgb_to_XYZ_601 ∘
          color_transfer_function_apply (fun x y : ℝ => x ^ y) ∘ color_gamut_clamp ∘
          color_matrix_apply color_matrix_build_yuv_to_rgb_601)
            ![((16 : ℕ) : ℝ), ((128 : ℕ) : ℝ), ((128 : ℕ) : ℝ)] 0) :=
  ⟨⟨by decide, by decide⟩,
    (table_entry_spec (fun x y : ℝ => x ^ y) (fun _ => 0) 0 16 128 128
      (by decide) (by decide) (by decide)).1⟩

/-- C10: the table build does not depend on the order of the visits nor on
the memory it starts from: running the loop body over any permutation of the
triples of the nested loops gives exactly the table of the nested loops, and
two builds from the null state, on whatever memory `g_malloc` returns, agree
on all `3 * 256^3` bytes. -/
theorem fill_table_order_independent (pow : ℝ → ℝ → ℝ) (order : List (ℕ × ℕ × ℕ))
    (hperm : order.Perm referenceOrder) (t0 t1 : Table) :
    fill_table_in_order pow order t0 = fill_table pow t0 ∧
      fill_table_in_order pow referenceOrder t0 = fill_table pow t0 ∧
      ∀ k < 3 * 0x1000000,
        (get_color_transform_table pow t0 none).2 k =
            (get_color_transform_table pow t1 none).2 k ∧
          fill_table_in_order pow order t0 k = fill_table pow t1 k := by
  have h1 := fill_table_in_order_eq pow order (fun x => hperm.mem_iff) t0
  refine ⟨h1, fill_table_in_order_eq pow referenceOrder (fun x => Iff.rfl) t0, ?_⟩
  intro k hk
  have h01 : fill_table pow t0 k = fill_table pow t1 k := by
    rw [fill_table_eq, fill_table_eq, if_pos hk, if_pos hk]
  rw [get_color_transform_table_none, get_color_transform_table_none, h1]
  simp only
  exact ⟨h01, h01⟩

/-- Witness of C10: the triples visited in the reverse of the order of the
nested loops, on zeroed memory and on memory filled with `0xff`, with the real
power. -/
theorem fill_table_order_independent_witness :
    referenceOrder.reverse.Perm referenceOrder ∧
      fill_table_in_order (fun x y : ℝ => x ^ y) referenceOrder.reverse (fun _ => 0) =
        fill_table (fun x y : ℝ => x ^ y) (fun _ => 0) :=
  ⟨List.reverse_perm _,
    (fill_table_order_independent (fun x y : ℝ => x ^ y) referenceOrder.reverse
      (List.reverse_perm _) (fun _ => 0) (fun _ => 255)).1⟩

/-! ## The cache and the row applier -/

/-- C11: with the cache as explicit state, a call of
`get_color_transform_table` on a state whose table is set returns that table
and leaves the state as it is, whatever memory an allocation would return;
hence, from every state, a second call returns the result and the state of the
first call. -/
theorem get_color_transform_table_idempotent (pow : ℝ → ℝ → ℝ) (fresh fresh2 : Table)
    (t : Table) (st : Option Table) :
    get_color_transform_table pow fresh (some t) = (some t, t) ∧
      get_color_transform_table pow fresh2 (get_color_transform_table pow fresh st).1 =
        get_color_transform_table pow fresh st := by
  refine ⟨rfl, ?_⟩
  cases st with
  | none => rw [get_color_transform_table_none]; rfl
  | some t0 => rfl

/-- A loop of stores `d[j] = f j` for `j` below `w`: index `i` holds `f i`
when `i < w` and is untouched otherwise. -/
theorem foldl_store_range (f : ℕ → ℕ) (w : ℕ) (dest : ℕ → ℕ) (i : ℕ) :
    (List.range w).foldl (fun d j => store d j (f j)) dest i =
      if i < w then f i else dest i := by
  induction w with
  | zero => simp
  | succ n ih =>
    rw [List.range_succ, List.foldl_append]
    simp only [List.foldl_cons, List.foldl_nil, store]
    by_cases h : i = n
    · subst h
      simp
    · rw [if_neg h, ih]
      by_cases h2 : i < n
      · rw [if_pos h2, if_pos (by omega)]
      · rw [if_neg h2, if_neg (by omega)]

/-- C12: for every width `w ≥ 0`, every channel selector `c` in `{0, 1, 2}` and
all source rows, `color_transform` writes
`dest[i] = table[c * 0x1000000 + ((src_y[i] << 16) | (src_u[i] << 8) | src_v[i])]`
for every `i` in `[0, w)` and leaves the destination alone from `w` on; so the
byte at `i` depends only on the input triple at `i` and on `c`. -/
theorem color_transform_spec (table : Table) (w : ℕ) (c : Fin 3)
    (src_y src_u src_v dest : ℕ → ℕ) :
    (∀ i < w, color_transform table (w : ℤ) src_y src_u src_v dest c.val i =
        table (c.val * 0x1000000 + ((src_y i <<< 16) ||| (src_u i <<< 8) ||| src_v i))) ∧
      (∀ i, w ≤ i → color_transform table (w : ℤ) src_y src_u src_v dest c.val i = dest i) := by
  have h := foldl_store_range
    (fun i => table (COG_OFFSET 0 (c.val * 0x1000000) +
      ((src_y i <<< 16) ||| (src_u i <<< 8) ||| src_v i))) w dest
  simp only [color_transform, Int.toNat_ofNat]
  constructor
  · intro i hi
    rw [h i, if_pos hi]
    simp [COG_OFFSET]
  · intro i hi
    rw [h i, if_neg (by omega)]

/-- Witness of C12: a row of two pixels, on the identity table, channel 1. -/
theorem color_transform_spec_witness :
    (1 : ℕ) < 2 ∧
      color_transform (fun k => k) ((2 : ℕ) : ℤ) (fun _ => 1) (fun _ => 2) (fun _ => 3)
        (fun _ => 0) (1 : Fin 3).val 1 =
        (1 : Fin 3).val * 0x1000000 + ((1 <<< 16) ||| (2 <<< 8) ||| 3) :=
  ⟨by decide,
    (color_transform_spec (fun k => k) 2 1 (fun _ => 1) (fun _ => 2) (fun _ => 3)
      (fun _ => 0)).1 1 (by decide)⟩

/-! ## Composition of stages -/

/-- Applying a product is applying the right factor first, when row 3 of the
right factor is `[0, 0, 0, 1]`. -/
theorem apply_multiply (A B : ColorMatrix ℝ) (hB : Row3Identity B) (p : Color ℝ) :
    color_matrix_apply (color_matrix_multiply A B) p =
      color_matrix_apply A (color_matrix_apply B p) := by
  obtain ⟨h0, h1, h2, h3⟩ := hB
  funext i
  simp only [color_matrix_apply, multiply_entry, h0, h1, h2, h3, Fin.castSucc_zero,
    Fin.castSucc_one, castSucc_two]
  ring

/-- The matrix that `color_matrix_offset_components` multiplies by is the
translation matrix. -/
theorem offset_components_eq (m : ColorMatrix ℝ) (d1 d2 d3 : ℝ) :
    color_matrix_offset_components m d1 d2 d3 =
      color_matrix_multiply (translationMatrix d1 d2 d3) m := by
  have ha : setEntry (setEntry (setEntry (color_matrix_set_identity : ColorMatrix ℝ)
      0 3 d1) 1 3 d2) 2 3 d3 = translationMatrix d1 d2 d3 := by
    funext i j
    fin_cases i <;> fin_cases j <;>
      simp [setEntry, color_matrix_set_identity, translationMatrix, ofRows]
  simp only [color_matrix_offset_components, ha]

/-- The matrix that `color_matrix_scale_components` multiplies by is the
scaling matrix. -/
theorem scale_components_eq (m : ColorMatrix ℝ) (s1 s2 s3 : ℝ) :
    color_matrix_scale_components m s1 s2 s3 =
      color_matrix_multiply (scalingMatrix s1 s2 s3) m := by
  have ha : setEntry (setEntry (setEntry (color_matrix_set_identity : ColorMatrix ℝ)
      0 0 s1) 1 1 s2) 2 2 s3 = scalingMatrix s1 s2 s3 := by
    funext i j
    fin_cases i <;> fin_cases j <;>
      simp [setEntry, color_matrix_set_identity, scalingMatrix, ofRows]
  simp only [color_matrix_scale_components, ha]

/-- Offsetting the components keeps row 3 equal to `[0, 0, 0, 1]`. -/
theorem row3_offset_components (m : ColorMatrix ℝ) (hm : Row3Identity m) (a1 a2 a3 : ℝ) :
    Row3Identity (color_matrix_offset_components m a1 a2 a3) := by
  obtain ⟨h0, h1, h2, h3⟩ := hm
  simp [Row3Identity, color_matrix_offset_components, multiply_entry, setEntry,
    color_matrix_set_identity, h0, h1, h2, h3]

/-- Row 3 of the identity matrix is `[0, 0, 0, 1]`. -/
theorem row3_set_identity : Row3Identity (color_matrix_set_identity : ColorMatrix ℝ) := by
  simp [Row3Identity, color_matrix_set_identity]

/-- The identity matrix leaves every point where it is. -/
theorem apply_set_identity (p : Color ℝ) :
    color_matrix_apply color_matrix_set_identity p = p := by
  funext i
  fin_cases i <;> simp [color_matrix_apply, color_matrix_set_identity, castSucc_two]

/-- C15: for all colour matrices `A`, `B` with row 3 of `B` equal to
`[0, 0, 0, 1]` and every point `p`,
`apply(multiply(A, B), p) = apply(A, apply(B, p))`: a stage multiplied on the
left acts after the stages accumulated so far. -/
theorem apply_multiply_compose (A B : ColorMatrix ℝ) (hB : Row3Identity B) (p : Color ℝ) :
    color_matrix_apply (color_matrix_multiply A B) p =
      color_matrix_apply A (color_matrix_apply B p) :=
  apply_multiply A B hB p

/-- Witness of C15: a scaling after a translation, on the point `(1, 2, 3)`. -/
theorem apply_multiply_compose_witness :
    Row3Identity (translationMatrix (1 : ℝ) 1 1) ∧
      color_matrix_apply
        (color_matrix_multiply (scalingMatrix (2 : ℝ) 2 2) (translationMatrix 1 1 1))
        ![1, 2, 3] =
      color_matrix_apply (scalingMatrix (2 : ℝ) 2 2)
        (color_matrix_apply (translationMatrix 1 1 1) ![1, 2, 3]) :=
  ⟨⟨rfl, rfl, rfl, rfl⟩,
    apply_multiply_compose (scalingMatrix 2 2 2) (translationMatrix 1 1 1)
      ⟨rfl, rfl, rfl, rfl⟩ ![1, 2, 3]⟩

/-- C16: for every colour matrix `m` whose row 3 is `[0, 0, 0, 1]`, every
point `p` and all reals `d1, d2, d3, s1, s2, s3`:
`color_matrix_offset_components` gives the left product `T * m` with `T` the
translation by `(d1, d2, d3)`, and applying it is applying `m` and adding
`(d1, d2, d3)`; `color_matrix_scale_components` gives the left product `S * m`
with `S = diag(s1, s2, s3, 1)`, and applying it is applying `m` and
multiplying the components by `(s1, s2, s3)`. -/
theorem offset_scale_components_spec (m : ColorMatrix ℝ) (hm : Row3Identity m)
    (p : Color ℝ) (d1 d2 d3 s1 s2 s3 : ℝ) :
    color_matrix_offset_components m d1 d2 d3 =
        color_matrix_multiply (translationMatrix d1 d2 d3) m ∧
      color_matrix_apply (color_matrix_offset_components m d1 d2 d3) p =
        (fun i => color_matrix_apply m p i + ![d1, d2, d3] i) ∧
      color_matrix_scale_components m s1 s2 s3 =
        color_matrix_multiply (scalingMatrix s1 s2 s3) m ∧
      color_matrix_apply (color_matrix_scale_components m s1 s2 s3) p =
        (fun i => ![s1, s2, s3] i * color_matrix_apply m p i) := by
  refine ⟨offset_components_eq m d1 d2 d3, ?_, scale_components_eq m s1 s2 s3, ?_⟩
  · rw [apply_offset_components m hm]
    funext i
    fin_cases i <;> simp
  · rw [apply_scale_components]
    funext i
    fin_cases i <;> simp

/-- Witness of C16: the identity matrix, offset by `(1, 2, 3)`, on the point
`(5, 6, 7)`. -/
theorem offset_scale_components_spec_witness :
    Row3Identity (color_matrix_set_identity : ColorMatrix ℝ) ∧
      color_matrix_apply
        (color_matrix_offset_components (color_matrix_set_identity : ColorMatrix ℝ) 1 2 3)
        ![5, 6, 7] =
        (fun i => color_matrix_apply color_matrix_set_identity ![5, 6, 7] i +
          ![(1 : ℝ), 2, 3] i) :=
  ⟨row3_set_identity,
    (offset_scale_components_spec color_matrix_set_identity row3_set_identity
      ![5, 6, 7] 1 2 3 1 1 1).2.1⟩

/-! ## The BT.601 builders -/

/-- The BT.601 YUV to RGB matrix on a colour: offset, then scale, then the
luma/chroma matrix with `Kr = 0.299`, `Kb = 0.114`. -/
theorem apply_yuv_to_rgb_601 (c : Color ℝ) :
    color_matrix_apply color_matrix_build_yuv_to_rgb_601 c =
      ![(c 0 - 16) / 219 + 2 * (1 - 0.299) * ((c 2 - 128) / 224),
        (c 0 - 16) / 219 -
          (2 * 0.114 * (1 - 0.114) / (1 - 0.299 - 0.114)) * ((c 1 - 128) / 224) -
          (2 * 0.299 * (1 - 0.299) / (1 - 0.299 - 0.114)) * ((c 2 - 128) / 224),
        (c 0 - 16) / 219 + 2 * (1 - 0.114) * ((c 1 - 128) / 224)] := by
  have ho : Row3Identity (color_matrix_offset_components
      (color_matrix_set_identity : ColorMatrix ℝ) (-16) (-128) (-128)) :=
    row3_offset_components _ row3_set_identity _ _ _
  have hs : Row3Identity (color_matrix_scale_components
      (color_matrix_offset_components (color_matrix_set_identity : ColorMatrix ℝ)
        (-16) (-128) (-128)) (1 / 219.0) (1 / 224.0) (1 / 224.0)) :=
    row3_scale_components _ ho _ _ _
  rw [color_matrix_build_yuv_to_rgb_601]
  simp only [color_matrix_YCbCr_to_RGB]
  rw [apply_multiply _ _ hs, apply_scale_components,
    apply_offset_components _ row3_set_identity, apply_set_identity]
  funext i
  fin_cases i <;>
    simp [color_matrix_apply, YCbCr_to_RGB_k, ofRows, castSucc_two] <;>
    norm_num <;>
    ring

/-- C17: the matrix built by `color_matrix_build_yuv_to_rgb_601` gives, on
every `(Y, U, V)`, with `Kr = 0.299`, `Kb = 0.114`, `Kg = 1 - Kr - Kb`,
`y = (Y - 16) / 219`, `u = (U - 128) / 224`, `v = (V - 128) / 224`:
`R = y + 2 (1 - Kr) v`,
`G = y - (2 Kb (1 - Kb) / Kg) u - (2 Kr (1 - Kr) / Kg) v`,
`B = y + 2 (1 - Kb) u`; it maps `(16, 128, 128)` to `(0, 0, 0)` and
`(235, 128, 128)` to `(1, 1, 1)`. -/
theorem build_yuv_to_rgb_601_spec (Y U V : ℝ) :
    color_matrix_apply color_matrix_build_yuv_to_rgb_601 ![Y, U, V] =
        ![(Y - 16) / 219 + 2 * (1 - 0.299) * ((V - 128) / 224),
          (Y - 16) / 219 -
            (2 * 0.114 * (1 - 0.114) / (1 - 0.299 - 0.114)) * ((U - 128) / 224) -
            (2 * 0.299 * (1 - 0.299) / (1 - 0.299 - 0.114)) * ((V - 128) / 224),
          (Y - 16) / 219 + 2 * (1 - 0.114) * ((U - 128) / 224)] ∧
      color_matrix_apply color_matrix_build_yuv_to_rgb_601 ![(16 : ℝ), 128, 128] =
        ![0, 0, 0] ∧
      color_matrix_apply color_matrix_build_yuv_to_rgb_601 ![(235 : ℝ), 128, 128] =
        ![1, 1, 1] := by
  refine ⟨?_, ?_, ?_⟩
  · rw [apply_yuv_to_rgb_601]
    simp
  · rw [apply_yuv_to_rgb_601]
    funext i
    fin_cases i <;> simp
  · rw [apply_yuv_to_rgb_601]
    funext i
    fin_cases i <;> norm_num

/-- C18: the matrix built by `color_matrix_build_rgb_to_yuv_601` gives, on
every `(R, G, B)`, with `Kr = 0.299`, `Kb = 0.114`, `Kg = 1 - Kr - Kb` and
`L = Kr R + Kg G + Kb B`: `Y = 16 + 219 L`,
`U = 128 + 224 (B - L) / (2 (1 - Kb))`,
`V = 128 + 224 (R - L) / (2 (1 - Kr))`; it maps `(0, 0, 0)` to
`(16, 128, 128)` and `(1, 1, 1)` to `(235, 128, 128)`. -/
theorem build_rgb_to_yuv_601_spec (R G B : ℝ) :
    color_matrix_apply color_matrix_build_rgb_to_yuv_601 ![R, G, B] =
        ![16 + 219 * (0.299 * R + (1 - 0.299 - 0.114) * G + 0.114 * B),
          128 + 224 * (B - (0.299 * R + (1 - 0.299 - 0.114) * G + 0.114 * B)) /
            (2 * (1 - 0.114)),
          128 + 224 * (R - (0.299 * R + (1 - 0.299 - 0.114) * G + 0.114 * B)) /
            (2 * (1 - 0.299))] ∧
      color_matrix_apply color_matrix_build_rgb_to_yuv_601 ![(0 : ℝ), 0, 0] =
        ![16, 128, 128] ∧
      color_matrix_apply color_matrix_build_rgb_to_yuv_601 ![(1 : ℝ), 1, 1] =
        ![235, 128, 128] := by
  refine ⟨?_, ?_, ?_⟩
  · rw [apply_rgb_to_yuv_601]
    funext i
    fin_cases i <;> simp <;> norm_num <;> ring
  · rw [apply_rgb_to_yuv_601]
    funext i
    fin_cases i <;> simp
  · rw [apply_rgb_to_yuv_601]
    funext i
    fin_cases i <;> norm_num

/-! ## Studio black and studio white -/

/-- A matrix with zero translation column maps the origin to the origin. -/
theorem apply_origin (m : ColorMatrix ℝ) (hm : translation m = (fun _ => 0)) :
    color_matrix_apply m ![0, 0, 0] = ![0, 0, 0] := by
  funext i
  have h := congrFun hm i
  simp only [translation] at h
  fin_cases i <;> simp [color_matrix_apply] at h ⊢ <;> exact h

/-- The translation column of a transposed matrix is zero. -/
theorem translation_transpose (m : ColorMatrix ℝ) :
    translation (color_matrix_transpose m) = (fun _ => 0) := by
  funext i
  fin_cases i <;>
    simp [translation, color_matrix_transpose, color_matrix_set_identity, castSucc_two,
      val_three]

/-- Row 3 of a transposed matrix is `[0, 0, 0, 1]`. -/
theorem row3_transpose (m : ColorMatrix ℝ) : Row3Identity (color_matrix_transpose m) := by
  simp [Row3Identity, color_matrix_transpose, color_matrix_set_identity, val_three]

/-- The clamp leaves the origin where it is. -/
theorem color_gamut_clamp_origin :
    color_gamut_clamp (![0, 0, 0] : Color ℝ) = ![0, 0, 0] := by
  funext i
  fin_cases i <;> simp [color_gamut_clamp, CLAMP] <;> norm_num

/-- The transfer function maps the origin to the origin, by its linear
branch. -/
theorem transfer_apply_origin (pow : ℝ → ℝ → ℝ) :
    color_transfer_function_apply pow ![0, 0, 0] = ![0, 0, 0] := by
  funext i
  fin_cases i <;> simp [color_transfer_function_apply] <;> norm_num

/-- The inverse transfer function maps the origin to the origin, by its linear
branch. -/
theorem transfer_unapply_origin (pow : ℝ → ℝ → ℝ) :
    color_transfer_function_unapply pow ![0, 0, 0] = ![0, 0, 0] := by
  funext i
  fin_cases i <;> simp [color_transfer_function_unapply] <;> norm_num

/-- An integer is rounded to itself. -/
theorem rint_intCast (n : ℤ) : rint ((n : ℤ) : ℝ) = n := by
  simp [rint]

/-- The colour computed for studio black is `(16, 128, 128)`. -/
theorem table_color_black (pow : ℝ → ℝ → ℝ) :
    table_color pow 16 128 128 = ![16, 128, 128] := by
  have h1 : color_matrix_apply color_matrix_build_yuv_to_rgb_601
      ![((16 : ℕ) : ℝ), ((128 : ℕ) : ℝ), ((128 : ℕ) : ℝ)] = ![0, 0, 0] := by
    rw [apply_yuv_to_rgb_601]
    funext i
    fin_cases i <;> simp
  have h2 : color_matrix_apply color_matrix_build_rgb_to_yuv_601 ![(0 : ℝ), 0, 0] =
      ![16, 128, 128] := by
    rw [apply_rgb_to_yuv_601]
    funext i
    fin_cases i <;> simp
  rw [table_color_eq_comp]
  simp only [Function.comp_apply]
  rw [h1, color_gamut_clamp_origin, transfer_apply_origin,
    apply_origin color_matrix_build_rgb_to_XYZ_601 (translation_transpose _),
    apply_origin color_matrix_build_XYZ_to_rgb_dell (invert_border _).1,
    transfer_unapply_origin, color_gamut_clamp_origin, h2]

/-- C13: the table entry for studio black `(16, 128, 128)` is within 1 of
`(16, 128, 128)` in each channel, and in fact equal to it: the YUV to RGB
matrix maps the triple to `(0, 0, 0)`, the clamp, both transfer functions and
both XYZ matrices leave `(0, 0, 0)` unchanged, and the RGB to YUV matrix and
the rounding give `(16, 128, 128)`. -/
theorem studio_black_entry (pow : ℝ → ℝ → ℝ) (fresh : Table) (c : Fin 3) :
    color_matrix_apply color_matrix_build_yuv_to_rgb_601 ![(16 : ℝ), 128, 128] =
        ![0, 0, 0] ∧
      color_gamut_clamp (![0, 0, 0] : Color ℝ) = ![0, 0, 0] ∧
      color_transfer_function_apply pow ![0, 0, 0] = ![0, 0, 0] ∧
      color_matrix_apply color_matrix_build_rgb_to_XYZ_601 ![(0 : ℝ), 0, 0] = ![0, 0, 0] ∧
      color_matrix_apply color_matrix_build_XYZ_to_rgb_dell ![(0 : ℝ), 0, 0] = ![0, 0, 0] ∧
      color_transfer_function_unapply pow ![0, 0, 0] = ![0, 0, 0] ∧
      color_matrix_apply color_matrix_build_rgb_to_yuv_601 ![(0 : ℝ), 0, 0] =
        ![16, 128, 128] ∧
      ((get_color_transform_table pow fresh none).2
        (c.val * 0x1000000 + ((16 <<< 16) ||| (128 <<< 8) ||| 128)) : ℤ) =
          (![16, 128, 128] : Fin 3 → ℤ) c ∧
      |((get_color_transform_table pow fresh none).2
        (c.val * 0x1000000 + ((16 <<< 16) ||| (128 <<< 8) ||| 128)) : ℤ) -
          (![16, 128, 128] : Fin 3 → ℤ) c| ≤ 1 := by
  have hentry : ((get_color_transform_table pow fresh none).2
      (c.val * 0x1000000 + ((16 <<< 16) ||| (128 <<< 8) ||| 128)) : ℤ) =
        (![16, 128, 128] : Fin 3 → ℤ) c := by
    have h := fill_table_at pow fresh c 16 128 128 (by decide) (by decide) (by decide)
    unfold flatIndex at h
    rw [get_color_transform_table_none]
    simp only
    rw [h, table_value_range_aux, table_color_black]
    fin_cases c
    · exact_mod_cast rint_intCast 16
    · exact_mod_cast rint_intCast 128
    · exact_mod_cast rint_intCast 128
  refine ⟨?_, color_gamut_clamp_origin, transfer_apply_origin pow,
    apply_origin _ (translation_transpose _), apply_origin _ (invert_border _).1,
    transfer_unapply_origin pow, ?_, hentry, ?_⟩
  · rw [apply_yuv_to_rgb_601]
    funext i
    fin_cases i <;> simp
  · rw [apply_rgb_to_yuv_601]
    funext i
    fin_cases i <;> simp
  · rw [hentry]
    simp

/-- The real power `1.099 ^ (1 / 0.45)` is at least `1.099`. -/
theorem white_rpow_ge : (1.099 : ℝ) ≤ (1.099 : ℝ) ^ ((1 : ℝ) / 0.4500) := by
  have h := Real.rpow_le_rpow_of_exponent_le (by norm_num : (1 : ℝ) ≤ 1.099)
    (by norm_num : (1 : ℝ) ≤ (1 : ℝ) / 0.4500)
  rwa [Real.rpow_one] at h

/-- C14 fails on the code: for studio white `(235, 128, 128)` the colour after
the YUV to RGB matrix and the clamp is `(1, 1, 1)`, and the linearization
`color_transfer_function_apply` then gives `1.099 ^ (1 / 0.45)` in every
component, which is at least `1.099`, so not within `0.01` of `1.0`. -/
theorem studio_white_linearized :
    color_gamut_clamp (color_matrix_apply color_matrix_build_yuv_to_rgb_601
        ![(235 : ℝ), 128, 128]) = ![1, 1, 1] ∧
      color_transfer_function_apply (fun x y => x ^ y)
        (color_gamut_clamp (color_matrix_apply color_matrix_build_yuv_to_rgb_601
          ![(235 : ℝ), 128, 128])) = (fun _ => (1.099 : ℝ) ^ ((1 : ℝ) / 0.4500)) ∧
      ∀ i : Fin 3, ¬ |color_transfer_function_apply (fun x y => x ^ y)
        (color_gamut_clamp (color_matrix_apply color_matrix_build_yuv_to_rgb_601
          ![(235 : ℝ), 128, 128])) i - 1.0| ≤ 0.01 := by
  have h1 : color_matrix_apply color_matrix_build_yuv_to_rgb_601 ![(235 : ℝ), 128, 128] =
      ![1, 1, 1] := by
    rw [apply_yuv_to_rgb_601]
    funext i
    fin_cases i <;> norm_num
  have h2 : color_gamut_clamp (![1, 1, 1] : Color ℝ) = ![1, 1, 1] := by
    funext i
    fin_cases i <;> simp [color_gamut_clamp, CLAMP] <;> norm_num
  have h3 : color_transfer_function_apply (fun x y => x ^ y) (![1, 1, 1] : Color ℝ) =
      (fun _ => (1.099 : ℝ) ^ ((1 : ℝ) / 0.4500)) := by
    funext i
    have hn : ¬ (1 : ℝ) < 0.0812 := by norm_num
    have hs : (1 : ℝ) + 0.099 = 1.099 := by norm_num
    fin_cases i <;> simp [color_transfer_function_apply, hn, hs]
  rw [h1, h2, h3]
  refine ⟨rfl, rfl, fun i => ?_⟩
  have hge := white_rpow_ge
  intro habs
  have := (abs_le.mp habs).2
  norm_num at this
  linarith

/-! ## The RGB to XYZ construction -/

/-- The core of `color_matrix_build_XYZ`: when `Q` inverts the 3x3 block of the
primaries matrix `P`, the rows of `P` scaled by the white point seen through
the transpose of `Q`, then transposed, map `(1, 1, 1)` to the white point. -/
theorem build_XYZ_core (P Q : ColorMatrix ℝ) (hQP : linearPart Q * linearPart P = 1)
    (w r g b : Color ℝ)
    (hr : ∀ i : Fin 3, P 0 (Fin.castSucc i) = r i)
    (hg : ∀ i : Fin 3, P 1 (Fin.castSucc i) = g i)
    (hb : ∀ i : Fin 3, P 2 (Fin.castSucc i) = b i) :
    color_matrix_apply
      (color_matrix_transpose
        (setPrimaries P r g b (color_matrix_apply (color_matrix_transpose Q) w)))
      ![1, 1, 1] = w := by
  funext i
  have e0 := linearPart_mul_entry Q P 0 i
  have e1 := linearPart_mul_entry Q P 1 i
  have e2 := linearPart_mul_entry Q P 2 i
  rw [hQP, hr, hg, hb] at e0 e1 e2
  simp only [Fin.castSucc_zero, Fin.castSucc_one, castSucc_two] at e0 e1 e2
  fin_cases i
  · simp [Matrix.one_apply] at e0 e1 e2
    simp [color_matrix_apply, color_matrix_transpose, setPrimaries, setEntry,
      color_matrix_set_identity, castSucc_two, val_three]
    linear_combination (-(w 0)) * e0 - w 1 * e1 - w 2 * e2
  · simp [Matrix.one_apply] at e0 e1 e2
    simp [color_matrix_apply, color_matrix_transpose, setPrimaries, setEntry,
      color_matrix_set_identity, castSucc_two, val_three]
    linear_combination (-(w 0)) * e0 - w 1 * e1 - w 2 * e2
  · simp [Matrix.one_apply] at e0 e1 e2
    simp [color_matrix_apply, color_matrix_transpose, setPrimaries, setEntry,
      color_matrix_set_identity, castSucc_two, val_three]
    linear_combination (-(w 0)) * e0 - w 1 * e1 - w 2 * e2

/-- The rows of the primaries matrix are the three primaries. -/
theorem primariesMatrix_rows (r g b : Color ℝ) :
    (∀ i : Fin 3, primariesMatrix r g b 0 (Fin.castSucc i) = r i) ∧
      (∀ i : Fin 3, primariesMatrix r g b 1 (Fin.castSucc i) = g i) ∧
      (∀ i : Fin 3, primariesMatrix r g b 2 (Fin.castSucc i) = b i) := by
  refine ⟨fun i => ?_, fun i => ?_, fun i => ?_⟩ <;>
    fin_cases i <;>
    simp [primariesMatrix, setEntry, color_matrix_set_identity, castSucc_two]

/-- The matrix of `color_matrix_build_XYZ`, with the `let`s unfolded. -/
theorem build_XYZ_eq (rx ry gx gy bx by_ wx wy : ℝ) :
    color_matrix_build_XYZ rx ry gx gy bx by_ wx wy =
      color_matrix_transpose
        (setPrimaries
          (primariesMatrix (color_xyY_to_XYZ (color_set rx ry 1))
            (color_xyY_to_XYZ (color_set gx gy 1)) (color_xyY_to_XYZ (color_set bx by_ 1)))
          (color_xyY_to_XYZ (color_set rx ry 1)) (color_xyY_to_XYZ (color_set gx gy 1))
          (color_xyY_to_XYZ (color_set bx by_ 1))
          (color_matrix_apply
            (color_matrix_transpose
              (color_matrix_invert
                (primariesMatrix (color_xyY_to_XYZ (color_set rx ry 1))
                  (color_xyY_to_XYZ (color_set gx gy 1))
                  (color_xyY_to_XYZ (color_set bx by_ 1)))))
            (color_xyY_to_XYZ (color_set wx wy 1)))) := by
  have h1 : (1.0 : ℝ) = 1 := by norm_num
  simp only [color_matrix_build_XYZ, h1]

/-- C19: for all chromaticities such that the matrix whose rows are the XYZ
values of the three primaries (each from xyY with `Y = 1`) has non-zero
determinant, the matrix `M` built by `color_matrix_build_XYZ` maps RGB
`(1, 1, 1)` to the white point `color_xyY_to_XYZ (wx, wy, 1)`, column `k` of
its 3x3 block is a scalar multiple of the XYZ vector of primary `k`, and its
translation column is zero. -/
theorem build_XYZ_spec (rx ry gx gy bx by_ wx wy : ℝ)
    (hdet : (linearPart (primariesMatrix (color_xyY_to_XYZ (color_set rx ry 1))
      (color_xyY_to_XYZ (color_set gx gy 1))
      (color_xyY_to_XYZ (color_set bx by_ 1)))).det ≠ 0) :
    color_matrix_apply (color_matrix_build_XYZ rx ry gx gy bx by_ wx wy) ![1, 1, 1] =
        color_xyY_to_XYZ (color_set wx wy 1) ∧
      (∃ s : Color ℝ, ∀ i : Fin 3,
        color_matrix_build_XYZ rx ry gx gy bx by_ wx wy (Fin.castSucc i) 0 =
            s 0 * color_xyY_to_XYZ (color_set rx ry 1) i ∧
          color_matrix_build_XYZ rx ry gx gy bx by_ wx wy (Fin.castSucc i) 1 =
            s 1 * color_xyY_to_XYZ (color_set gx gy 1) i ∧
          color_matrix_build_XYZ rx ry gx gy bx by_ wx wy (Fin.castSucc i) 2 =
            s 2 * color_xyY_to_XYZ (color_set bx by_ 1) i) ∧
      translation (color_matrix_build_XYZ rx ry gx gy bx by_ wx wy) = (fun _ => 0) := by
  obtain ⟨hr, hg, hb⟩ := primariesMatrix_rows (color_xyY_to_XYZ (color_set rx ry 1))
    (color_xyY_to_XYZ (color_set gx gy 1)) (color_xyY_to_XYZ (color_set bx by_ 1))
  rw [build_XYZ_eq]
  refine ⟨build_XYZ_core _ _ (linearPart_invert_mul _ hdet) _ _ _ _ hr hg hb, ?_,
    translation_transpose _⟩
  refine ⟨color_matrix_apply
    (color_matrix_transpose
      (color_matrix_invert
        (primariesMatrix (color_xyY_to_XYZ (color_set rx ry 1))
          (color_xyY_to_XYZ (color_set gx gy 1))
          (color_xyY_to_XYZ (color_set bx by_ 1)))))
    (color_xyY_to_XYZ (color_set wx wy 1)), fun i => ?_⟩
  generalize color_matrix_apply _ (color_xyY_to_XYZ (color_set wx wy 1)) = s
  fin_cases i <;>
    simp [color_matrix_transpose, setPrimaries, setEntry, castSucc_two] <;>
    refine ⟨?_, ?_, ?_⟩ <;> ring

/-- The primaries matrix of the SMPTE C set has non-zero determinant. -/
theorem smpte_c_primaries_det :
    (linearPart (primariesMatrix (color_xyY_to_XYZ (color_set (0.630 : ℝ) 0.340 1))
      (color_xyY_to_XYZ (color_set 0.310 0.595 1))
      (color_xyY_to_XYZ (color_set 0.155 0.070 1)))).det ≠ 0 := by
  rw [Matrix.det_fin_three]
  simp [linearPart, primariesMatrix, setEntry, color_set, color_xyY_to_XYZ,
    color_matrix_set_identity, castSucc_two]
  norm_num

/-- Witness of C19: the SMPTE C primaries with the D65 white point of
`color_matrix_build_rgb_to_XYZ_601`. -/
theorem build_XYZ_spec_witness :
    (linearPart (primariesMatrix (color_xyY_to_XYZ (color_set (0.630 : ℝ) 0.340 1))
      (color_xyY_to_XYZ (color_set 0.310 0.595 1))
      (color_xyY_to_XYZ (color_set 0.155 0.070 1)))).det ≠ 0 ∧
      color_matrix_apply
        (color_matrix_build_XYZ (0.630 : ℝ) 0.340 0.310 0.595 0.155 0.070 0.3127 0.3290)
        ![1, 1, 1] = color_xyY_to_XYZ (color_set 0.3127 0.3290 1) :=
  ⟨smpte_c_primaries_det,
    (build_XYZ_spec 0.630 0.340 0.310 0.595 0.155 0.070 0.3127 0.3290
      smpte_c_primaries_det).1⟩

/-! ## The rounding at the store -/

/-- The value of `rint` is a nearest integer. -/
theorem rint_nearest (x : ℝ) : |x - (rint x : ℝ)| ≤ 1 / 2 := by
  have h1 := Int.floor_le x
  have h2 := Int.lt_floor_add_one x
  unfold rint
  simp only
  split_ifs with ha hb hc
  · rw [abs_le]
    constructor <;> linarith
  · rw [abs_le]
    push_cast
    constructor <;> linarith
  · rw [abs_le]
    constructor <;> linarith
  · rw [abs_le]
    push_cast
    constructor <;> linarith

/-- A tie `n + 0.5` is rounded to the even one of `n` and `n + 1`. -/
theorem rint_tie (n : ℤ) : rint ((n : ℝ) + 0.5) = if n % 2 = 0 then n else n + 1 := by
  have hf : ⌊(n : ℝ) + 0.5⌋ = n := by
    rw [Int.floor_eq_iff]
    constructor <;> norm_num
  have hd : ¬ ((n : ℝ) + 0.5 - (n : ℝ) < 1 / 2) := by norm_num
  have hd2 : ¬ ((1 : ℝ) / 2 < (n : ℝ) + 0.5 - (n : ℝ)) := by norm_num
  unfold rint
  simp only [hf, if_neg hd, if_neg hd2]

/-- C20, as stated, fails at `n = 0` and `n = 2`: `0.5` is stored as `0`, not
`1`, and `2.5` as `2`, not `3`. -/
theorem rint_tie_counterexample :
    toByte (rint (((0 : ℤ) : ℝ) + 0.5)) = 0 ∧ toByte (rint (((0 : ℤ) : ℝ) + 0.5)) ≠ 0 + 1 ∧
      toByte (rint (((2 : ℤ) : ℝ) + 0.5)) = 2 ∧ toByte (rint (((2 : ℤ) : ℝ) + 0.5)) ≠ 2 + 1 := by
  rw [rint_tie 0, rint_tie 2]
  decide

/-- C20, amended: the quantiser of the store rounds its real argument to a
nearest integer, a tie going to the even neighbour: for every integer `n` in
`[0, 254]` the value `n + 0.5` is stored as `n + 1` when `n` is odd and as `n`
when `n` is even. -/
theorem rint_tie_to_even (x : ℝ) (n : ℤ) (h0 : 0 ≤ n) (h1 : n ≤ 254) :
    |x - (rint x : ℝ)| ≤ 1 / 2 ∧
      (toByte (rint ((n : ℝ) + 0.5)) : ℤ) = if n % 2 = 0 then n else n + 1 := by
  refine ⟨rint_nearest x, ?_⟩
  rw [rint_tie n]
  split_ifs with h
  · exact toByte_of_range _ h0 (by omega)
  · exact toByte_of_range _ (by omega) (by omega)

/-- Witness of the amended C20: the ties `1.5` and the value `0.3`. -/
theorem rint_tie_to_even_witness :
    ((0 : ℤ) ≤ 1 ∧ (1 : ℤ) ≤ 254) ∧
      (toByte (rint (((1 : ℤ) : ℝ) + 0.5)) : ℤ) = if (1 : ℤ) % 2 = 0 then 1 else 1 + 1 :=
  ⟨⟨by decide, by decide⟩, (rint_tie_to_even 0.3 1 (by decide) (by decide)).2⟩

/-! ## The gamut clamp and the transpose -/

/-- The clamp to `[0, 1]` is `min (max x 0) 1`. -/
theorem CLAMP_eq_min_max (x : ℝ) : CLAMP x 0.0 1.0 = min (max x 0) 1 := by
  unfold CLAMP
  split_ifs with h1 h2
  · norm_num at h1
    rw [min_eq_right (le_max_of_le_left h1.le)]
    norm_num
  · norm_num at h1 h2
    rw [max_eq_right h2.le]
    norm_num
  · norm_num at h1 h2
    rw [max_eq_left h2, min_eq_left h1]

/-- Component `i` of the clamped colour is the clamp of component `i`. -/
theorem color_gamut_clamp_apply (c : Color ℝ) (i : Fin 3) :
    color_gamut_clamp c i = CLAMP (c i) 0.0 1.0 := by
  fin_cases i <;> simp [color_gamut_clamp]

/-- C21: for every colour `c`, `color_gamut_clamp` returns, componentwise,
`min (max c_i 0) 1`: every output component lies in `[0, 1]`, a component
already in `[0, 1]` is returned unchanged, and clamping is idempotent. -/
theorem color_gamut_clamp_spec (c : Color ℝ) :
    (∀ i, color_gamut_clamp c i = min (max (c i) 0) 1) ∧
      (∀ i, 0 ≤ color_gamut_clamp c i ∧ color_gamut_clamp c i ≤ 1) ∧
      (∀ i, 0 ≤ c i → c i ≤ 1 → color_gamut_clamp c i = c i) ∧
      color_gamut_clamp (color_gamut_clamp c) = color_gamut_clamp c := by
  have hmm : ∀ (d : Color ℝ) (i : Fin 3), color_gamut_clamp d i = min (max (d i) 0) 1 :=
    fun d i => by rw [color_gamut_clamp_apply, CLAMP_eq_min_max]
  have hfix : ∀ (d : Color ℝ) (i : Fin 3), 0 ≤ d i → d i ≤ 1 →
      color_gamut_clamp d i = d i := by
    intro d i h0 h1
    rw [hmm, max_eq_left h0, min_eq_left h1]
  refine ⟨hmm c, color_gamut_clamp_unit c, hfix c, ?_⟩
  funext i
  exact hfix _ i (color_gamut_clamp_unit c i).1 (color_gamut_clamp_unit c i).2

/-- Witness of C21: a colour with a component below 0, one inside `[0, 1]`
and one above 1; the inside component is returned unchanged. -/
theorem color_gamut_clamp_spec_witness :
    ((0 : ℝ) ≤ (![-1, 0.5, 2] : Color ℝ) 1 ∧ (![-1, 0.5, 2] : Color ℝ) 1 ≤ 1) ∧
      color_gamut_clamp (![-1, 0.5, 2] : Color ℝ) 1 = (![-1, 0.5, 2] : Color ℝ) 1 :=
  have h : (0 : ℝ) ≤ (![-1, 0.5, 2] : Color ℝ) 1 ∧ (![-1, 0.5, 2] : Color ℝ) 1 ≤ 1 := by
    constructor <;> norm_num
  ⟨h, (color_gamut_clamp_spec ![-1, 0.5, 2]).2.2.1 1 h.1 h.2⟩

/-- C22: for every colour matrix `M`, `color_matrix_transpose` yields `T` with
`T[i][j] = M[j][i]` for `i, j` in `{0, 1, 2}`, zero translation column and
row 3 equal to `[0, 0, 0, 1]`; so `transpose(transpose(M)) = M` exactly when
`M` has zero translation column and row 3 equal to `[0, 0, 0, 1]`. -/
theorem color_matrix_transpose_spec (M : ColorMatrix ℝ) :
    (∀ i j : Fin 3, color_matrix_transpose M (Fin.castSucc i) (Fin.castSucc j) =
        M (Fin.castSucc j) (Fin.castSucc i)) ∧
      translation (color_matrix_transpose M) = (fun _ => 0) ∧
      Row3Identity (color_matrix_transpose M) ∧
      (color_matrix_transpose (color_matrix_transpose M) = M ↔
        translation M = (fun _ => 0) ∧ Row3Identity M) := by
  refine ⟨?_, translation_transpose M, row3_transpose M, ?_⟩
  · intro i j
    fin_cases i <;> fin_cases j <;> simp [color_matrix_transpose, castSucc_two]
  · constructor
    · intro h
      rw [← h]
      exact ⟨translation_transpose _, row3_transpose _⟩
    · rintro ⟨ht, h0, h1, h2, h3⟩
      have t0 := congrFun ht 0
      have t1 := congrFun ht 1
      have t2 := congrFun ht 2
      simp only [translation, Fin.castSucc_zero, Fin.castSucc_one, castSucc_two] at t0 t1 t2
      funext i j
      fin_cases i <;> fin_cases j <;>
        simp [color_matrix_transpose, color_matrix_set_identity, val_three, t0, t1, t2,
          h0, h1, h2, h3]

/-! ## Index arithmetic of the table -/

/-- C24: for every channel selector `c` in `{0, 1, 2}` and all bytes
`y, u, v`, the index `c * 0x1000000 + ((y << 16) | (u << 8) | v)` is below
`3 * 0x1000000`; `(y, u, v) ↦ (y << 16) | (u << 8) | v` is a bijection from
the byte triples onto `[0, 0x1000000)`; so no store or lookup leaves the
buffer and the three channel sub-ranges do not overlap. -/
theorem flat_index_spec (c : Fin 3) (y u v : ℕ) (hy : y < 256) (hu : u < 256)
    (hv : v < 256) :
    c.val * 0x1000000 + flatIndex y u v < 3 * 0x1000000 ∧
      flatIndex y u v < 0x1000000 ∧
      (∀ y2 u2 v2 : ℕ, y2 < 256 → u2 < 256 → v2 < 256 →
        flatIndex y u v = flatIndex y2 u2 v2 → y = y2 ∧ u = u2 ∧ v = v2) ∧
      (∀ k < 0x1000000, ∃ y2 u2 v2 : ℕ, y2 < 256 ∧ u2 < 256 ∧ v2 < 256 ∧
        flatIndex y2 u2 v2 = k) ∧
      (∀ (c2 : Fin 3) (y2 u2 v2 : ℕ), y2 < 256 → u2 < 256 → v2 < 256 →
        c.val * 0x1000000 + flatIndex y u v = c2.val * 0x1000000 + flatIndex y2 u2 v2 →
          c = c2 ∧ y = y2 ∧ u = u2 ∧ v = v2) := by
  have hc := c.isLt
  rw [flatIndex_eq y u v hu hv]
  refine ⟨by omega, by omega, ?_, ?_, ?_⟩
  · intro y2 u2 v2 hy2 hu2 hv2 he
    rw [flatIndex_eq y2 u2 v2 hu2 hv2] at he
    omega
  · intro k hk
    refine ⟨k / 0x10000, k / 0x100 % 0x100, k % 0x100, by omega, by omega, by omega, ?_⟩
    rw [flatIndex_eq _ _ _ (by omega) (by omega)]
    omega
  · intro c2 y2 u2 v2 hy2 hu2 hv2 he
    rw [flatIndex_eq y2 u2 v2 hu2 hv2] at he
    have hc2 := c2.isLt
    refine ⟨Fin.ext (by omega), by omega, by omega, by omega⟩

/-- Witness of C24: the last byte of the last channel, `c = 2` and
`(255, 255, 255)`. -/
theorem flat_index_spec_witness :
    (255 : ℕ) < 256 ∧
      (2 : Fin 3).val * 0x1000000 + flatIndex 255 255 255 < 3 * 0x1000000 :=
  ⟨by decide, (flat_index_spec 2 255 255 255 (by decide) (by decide) (by decide)).1⟩

/-! ## The row 3 invariant -/

/-- A product of matrices with row 3 equal to `[0, 0, 0, 1]` has row 3 equal
to `[0, 0, 0, 1]`. -/
theorem row3_multiply (A B : ColorMatrix ℝ) (hA : Row3Identity A) (hB : Row3Identity B) :
    Row3Identity (color_matrix_multiply A B) := by
  obtain ⟨a0, a1, a2, a3⟩ := hA
  obtain ⟨b0, b1, b2, b3⟩ := hB
  simp [Row3Identity, multiply_entry, a0, a1, a2, a3, b0, b1, b2, b3]

/-- The matrix of `color_matrix_YCbCr_to_RGB` has row 3 equal to
`[0, 0, 0, 1]`. -/
theorem row3_YCbCr_to_RGB_k (Kr Kb : ℝ) : Row3Identity (YCbCr_to_RGB_k Kr Kb) :=
  ⟨rfl, rfl, rfl, rfl⟩

/-- C25: the invariant "row 3 is `[0, 0, 0, 1]`": the identity, the result of
`color_matrix_invert`, of `color_matrix_transpose` and of
`color_matrix_build_XYZ` always have it; `color_matrix_multiply` gives it when
both operands have it; the offset, the scale and the two luma/chroma functions
keep it on their matrix argument; hence the four matrices of the table build
have it. -/
theorem row3_invariant (A B : ColorMatrix ℝ) (a1 a2 a3 Kr Kb : ℝ)
    (rx ry gx gy bx by_ wx wy : ℝ) :
    Row3Identity (color_matrix_set_identity : ColorMatrix ℝ) ∧
      Row3Identity (color_matrix_invert A) ∧
      Row3Identity (color_matrix_transpose A) ∧
      Row3Identity (color_matrix_build_XYZ rx ry gx gy bx by_ wx wy) ∧
      (Row3Identity A → Row3Identity B → Row3Identity (color_matrix_multiply A B)) ∧
      (Row3Identity A → Row3Identity (color_matrix_offset_components A a1 a2 a3)) ∧
      (Row3Identity A → Row3Identity (color_matrix_scale_components A a1 a2 a3)) ∧
      (Row3Identity A → Row3Identity (color_matrix_YCbCr_to_RGB A Kr Kb)) ∧
      (Row3Identity A → Row3Identity (color_matrix_RGB_to_YCbCr A Kr Kb)) ∧
      Row3Identity (color_matrix_build_yuv_to_rgb_601 : ColorMatrix ℝ) ∧
      Row3Identity (color_matrix_build_rgb_to_yuv_601 : ColorMatrix ℝ) ∧
      Row3Identity (color_matrix_build_rgb_to_XYZ_601 : ColorMatrix ℝ) ∧
      Row3Identity (color_matrix_build_XYZ_to_rgb_dell : ColorMatrix ℝ) := by
  refine ⟨row3_set_identity, (invert_border A).2, row3_transpose A, ?_,
    row3_multiply A B, fun h => row3_offset_components A h a1 a2 a3,
    fun h => row3_scale_components A h a1 a2 a3,
    fun h => row3_multiply _ A (row3_YCbCr_to_RGB_k Kr Kb) h,
    fun h => row3_multiply _ A (row3_RGB_to_YCbCr_k Kr Kb) h, ?_, ?_, ?_,
    (invert_border _).2⟩
  · rw [build_XYZ_eq]
    exact row3_transpose _
  · exact row3_multiply _ _ (row3_YCbCr_to_RGB_k _ _)
      (row3_scale_components _ (row3_offset_components _ row3_set_identity _ _ _) _ _ _)
  · exact row3_offset_components _
      (row3_scale_components _
        (row3_multiply _ _ (row3_RGB_to_YCbCr_k _ _) row3_set_identity) _ _ _) _ _ _
  · rw [color_matrix_build_rgb_to_XYZ_601, build_XYZ_eq]
    exact row3_transpose _

/-- Witness of C25: the product of a translation and a scaling matrix. -/
theorem row3_invariant_witness :
    (Row3Identity (translationMatrix (1 : ℝ) 2 3) ∧
        Row3Identity (scalingMatrix (2 : ℝ) 2 2)) ∧
      Row3Identity
        (color_matrix_multiply (translationMatrix (1 : ℝ) 2 3) (scalingMatrix 2 2 2)) :=
  ⟨⟨⟨rfl, rfl, rfl, rfl⟩, ⟨rfl, rfl, rfl, rfl⟩⟩,
    (row3_invariant (translationMatrix 1 2 3) (scalingMatrix 2 2 2) 0 0 0 0 0
      0 0 0 0 0 0 0 0).2.2.2.2.1 ⟨rfl, rfl, rfl, rfl⟩ ⟨rfl, rfl, rfl, rfl⟩⟩

/-! ## Chromaticity conversions -/

/-- C30: the chromaticity conversions round-trip away from their zero
denominators: `XYZ_to_xyY (xyY_to_XYZ (x, y, Y)) = (x, y, Y)` when `y ≠ 0` and
`Y ≠ 0`, `xyY_to_XYZ (XYZ_to_xyY (X, Y, Z)) = (X, Y, Z)` when `Y ≠ 0` and
`X + Y + Z ≠ 0`; and the zero-denominator cases return the fixed fallbacks
`(0, 0, 0)` for `y = 0` and `(0.3128, 0.3290, 0)` for `X + Y + Z = 0`. -/
theorem chromaticity_roundtrip (a b c : ℝ) :
    (b ≠ 0 → c ≠ 0 →
        color_XYZ_to_xyY (color_xyY_to_XYZ ![a, b, c]) = ![a, b, c]) ∧
      (b ≠ 0 → a + b + c ≠ 0 →
        color_xyY_to_XYZ (color_XYZ_to_xyY ![a, b, c]) = ![a, b, c]) ∧
      color_xyY_to_XYZ ![a, 0, c] = ![0, 0, 0] ∧
      (a + b + c = 0 → color_XYZ_to_xyY ![a, b, c] = ![0.3128, 0.3290, 0]) := by
  have h1 : (1.0 : ℝ) = 1 := by norm_num
  refine ⟨fun hb hc => ?_, fun hb hd => ?_, ?_, fun hd => ?_⟩
  · have hd : a * c / b + c + (1 - a - b) * c / b = c / b := by
      field_simp
      ring
    have hd0 : c / b ≠ 0 := div_ne_zero hc hb
    funext i
    fin_cases i <;>
      simp [color_XYZ_to_xyY, color_xyY_to_XYZ, hb, h1, hd, hd0] <;>
      field_simp
  · have hy : b / (a + b + c) ≠ 0 := div_ne_zero hb hd
    funext i
    fin_cases i <;>
      simp [color_XYZ_to_xyY, color_xyY_to_XYZ, hd, h1, hy, hb] <;>
      first
        | (field_simp; ring1)
        | field_simp
  · simp [color_xyY_to_XYZ]
  · simp [color_XYZ_to_xyY, hd]

/-- Witness of C30: the D65 white point `(0.3127, 0.3290, 1)`. -/
theorem chromaticity_roundtrip_witness :
    ((0.3290 : ℝ) ≠ 0 ∧ (1 : ℝ) ≠ 0) ∧
      color_XYZ_to_xyY (color_xyY_to_XYZ ![(0.3127 : ℝ), 0.3290, 1]) =
        ![0.3127, 0.3290, 1] :=
  ⟨⟨by norm_num, by norm_num⟩,
    (chromaticity_roundtrip 0.3127 0.3290 1).1 (by norm_num) (by norm_num)⟩

/-! ## Studio range of the table -/

/-- After the clamp, the luma given by the BT.601 RGB to YUV matrix is at
most 235. -/
theorem luma_of_clamped_le (c : Color ℝ) :
    color_matrix_apply color_matrix_build_rgb_to_yuv_601 (color_gamut_clamp c) 0 ≤ 235 := by
  obtain ⟨_, u0⟩ := color_gamut_clamp_unit c 0
  obtain ⟨_, u1⟩ := color_gamut_clamp_unit c 1
  obtain ⟨_, u2⟩ := color_gamut_clamp_unit c 2
  rw [apply_rgb_to_yuv_601]
  generalize color_gamut_clamp c 0 = r at *
  generalize color_gamut_clamp c 1 = g at *
  generalize color_gamut_clamp c 2 = b at *
  simp
  norm_num
  linarith

/-- The rounded components of the BT.601 RGB to YUV matrix on a clamped
colour are in the studio range. -/
theorem rint_yuv_of_clamped (c : Color ℝ) :
    (16 ≤ rint (color_matrix_apply color_matrix_build_rgb_to_yuv_601 (color_gamut_clamp c) 0) ∧
      rint (color_matrix_apply color_matrix_build_rgb_to_yuv_601 (color_gamut_clamp c) 0)
        ≤ 235) ∧
    (16 ≤ rint (color_matrix_apply color_matrix_build_rgb_to_yuv_601 (color_gamut_clamp c) 1) ∧
      rint (color_matrix_apply color_matrix_build_rgb_to_yuv_601 (color_gamut_clamp c) 1)
        ≤ 240) ∧
    (16 ≤ rint (color_matrix_apply color_matrix_build_rgb_to_yuv_601 (color_gamut_clamp c) 2) ∧
      rint (color_matrix_apply color_matrix_build_rgb_to_yuv_601 (color_gamut_clamp c) 2)
        ≤ 240) := by
  have h0 := yuv_of_clamped_bounds c 0
  have h1 := yuv_of_clamped_bounds c 1
  have h2 := yuv_of_clamped_bounds c 2
  have hl := luma_of_clamped_le c
  exact ⟨rint_bounds _ 16 235 (by exact_mod_cast h0.1) (by exact_mod_cast hl),
    rint_bounds _ 16 240 (by exact_mod_cast h1.1) (by exact_mod_cast h1.2),
    rint_bounds _ 16 240 (by exact_mod_cast h2.1) (by exact_mod_cast h2.2)⟩

/-- The table colour is the BT.601 RGB to YUV matrix on a clamped colour. -/
theorem table_color_eq_yuv_of_clamped (pow : ℝ → ℝ → ℝ) (y u v : ℕ) :
    table_color pow y u v =
      color_matrix_apply color_matrix_build_rgb_to_yuv_601
        (color_gamut_clamp
          (color_transfer_function_unapply pow
            (color_matrix_apply color_matrix_build_XYZ_to_rgb_dell
              (color_matrix_apply color_matrix_build_rgb_to_XYZ_601
                (color_transfer_function_apply pow
                  (color_gamut_clamp
                    (color_matrix_apply color_matrix_build_yuv_to_rgb_601
                      ![(y : ℝ), (u : ℝ), (v : ℝ)]))))))) := rfl

/-- The byte of channel `c` and the byte triple `(y, u, v)` in the table built
from the null state, as an integer: the rounded component `c` of the table
colour. -/
theorem table_entry_int (pow : ℝ → ℝ → ℝ) (fresh : Table) (c : Fin 3) (y u v : ℕ)
    (hy : y < 256) (hu : u < 256) (hv : v < 256) :
    ((get_color_transform_table pow fresh none).2
      (c.val * 0x1000000 + ((y <<< 16) ||| (u <<< 8) ||| v)) : ℤ) =
        rint (table_color pow y u v c) := by
  have h := fill_table_at pow fresh c y u v hy hu hv
  unfold flatIndex at h
  rw [get_color_transform_table_none]
  simp only
  rw [h]
  exact table_value_range_aux pow y u v c

/-- C26: for every colour `c`, the rounded components of
`color_matrix_apply (rgb_to_yuv_601, color_gamut_clamp c)` satisfy
`16 ≤ Y ≤ 235`, `16 ≤ U ≤ 240` and `16 ≤ V ≤ 240`; therefore every Y-channel
table entry lies in `[16, 235]` and every U- and V-channel entry in
`[16, 240]`. -/
theorem studio_range (pow : ℝ → ℝ → ℝ) (fresh : Table) (col : Color ℝ) (y u v : ℕ)
    (hy : y < 256) (hu : u < 256) (hv : v < 256) :
    ((16 ≤ rint (color_matrix_apply color_matrix_build_rgb_to_yuv_601
          (color_gamut_clamp col) 0) ∧
        rint (color_matrix_apply color_matrix_build_rgb_to_yuv_601
          (color_gamut_clamp col) 0) ≤ 235) ∧
      (16 ≤ rint (color_matrix_apply color_matrix_build_rgb_to_yuv_601
          (color_gamut_clamp col) 1) ∧
        rint (color_matrix_apply color_matrix_build_rgb_to_yuv_601
          (color_gamut_clamp col) 1) ≤ 240) ∧
      (16 ≤ rint (color_matrix_apply color_matrix_build_rgb_to_yuv_601
          (color_gamut_clamp col) 2) ∧
        rint (color_matrix_apply color_matrix_build_rgb_to_yuv_601
          (color_gamut_clamp col) 2) ≤ 240)) ∧
      (16 ≤ (get_color_transform_table pow fresh none).2
          (0 * 0x1000000 + ((y <<< 16) ||| (u <<< 8) ||| v)) ∧
        (get_color_transform_table pow fresh none).2
          (0 * 0x1000000 + ((y <<< 16) ||| (u <<< 8) ||| v)) ≤ 235) ∧
      (16 ≤ (get_color_transform_table pow fresh none).2
          (1 * 0x1000000 + ((y <<< 16) ||| (u <<< 8) ||| v)) ∧
        (get_color_transform_table pow fresh none).2
          (1 * 0x1000000 + ((y <<< 16) ||| (u <<< 8) ||| v)) ≤ 240) ∧
      (16 ≤ (get_color_transform_table pow fresh none).2
          (2 * 0x1000000 + ((y <<< 16) ||| (u <<< 8) ||| v)) ∧
        (get_color_transform_table pow fresh none).2
          (2 * 0x1000000 + ((y <<< 16) ||| (u <<< 8) ||| v)) ≤ 240) := by
  have e0 := table_entry_int pow fresh 0 y u v hy hu hv
  have e1 := table_entry_int pow fresh 1 y u v hy hu hv
  have e2 := table_entry_int pow fresh 2 y u v hy hu hv
  rw [table_color_eq_yuv_of_clamped] at e0 e1 e2
  obtain ⟨b0, b1, b2⟩ := rint_yuv_of_clamped
    (color_transfer_function_unapply pow
      (color_matrix_apply color_matrix_build_XYZ_to_rgb_dell
        (color_matrix_apply color_matrix_build_rgb_to_XYZ_601
          (color_transfer_function_apply pow
            (color_gamut_clamp
              (color_matrix_apply color_matrix_build_yuv_to_rgb_601
                ![(y : ℝ), (u : ℝ), (v : ℝ)]))))))
  rw [← e0] at b0
  rw [← e1] at b1
  rw [← e2] at b2
  simp only [Fin.val_zero, Fin.val_one, Fin.val_two] at b0 b1 b2
  refine ⟨rint_yuv_of_clamped col, ?_, ?_, ?_⟩
  · exact ⟨by exact_mod_cast b0.1, by exact_mod_cast b0.2⟩
  · exact ⟨by exact_mod_cast b1.1, by exact_mod_cast b1.2⟩
  · exact ⟨by exact_mod_cast b2.1, by exact_mod_cast b2.2⟩

/-- Witness of C26: the colour `(2, -1, 0.5)` and the entries of studio white
`(235, 128, 128)` in a table built on zeroed memory with the real power. -/
theorem studio_range_witness :
    (235 : ℕ) < 256 ∧ (128 : ℕ) < 256 ∧
      16 ≤ (get_color_transform_table (fun x y : ℝ => x ^ y) (fun _ => 0) none).2
        (0 * 0x1000000 + ((235 <<< 16) ||| (128 <<< 8) ||| 128)) ∧
      (get_color_transform_table (fun x y : ℝ => x ^ y) (fun _ => 0) none).2
        (0 * 0x1000000 + ((235 <<< 16) ||| (128 <<< 8) ||| 128)) ≤ 235 :=
  ⟨by decide, by decide,
    (studio_range (fun x y : ℝ => x ^ y) (fun _ => 0) ![2, -1, 0.5] 235 128 128
      (by decide) (by decide) (by decide)).2.1⟩

/-! ## The BT.601 pair, sub-black inputs and monotonicity -/

/-- C27: the two BT.601 builders are mutually inverse affine maps: for every
point `p`, applying the YUV to RGB matrix and then the RGB to YUV matrix gives
`p`, and so does applying them in the other order. -/
theorem bt601_builders_inverse (p : Color ℝ) :
    color_matrix_apply color_matrix_build_rgb_to_yuv_601
        (color_matrix_apply color_matrix_build_yuv_to_rgb_601 p) = p ∧
      color_matrix_apply color_matrix_build_yuv_to_rgb_601
        (color_matrix_apply color_matrix_build_rgb_to_yuv_601 p) = p := by
  constructor
  · rw [apply_yuv_to_rgb_601, apply_rgb_to_yuv_601]
    funext i
    fin_cases i <;> simp <;> norm_num <;> ring
  · rw [apply_rgb_to_yuv_601, apply_yuv_to_rgb_601]
    funext i
    fin_cases i <;> simp <;> norm_num <;> ring

/-- The clamp sends a colour with no positive component to the origin. -/
theorem color_gamut_clamp_nonpos (x : ℝ) (hx : x ≤ 0) :
    color_gamut_clamp (![x, x, x] : Color ℝ) = ![0, 0, 0] := by
  have h : CLAMP x 0.0 1.0 = 0 := by
    rw [CLAMP_eq_min_max, max_eq_right hx]
    norm_num
  funext i
  fin_cases i <;> simp [color_gamut_clamp, h]

/-- The YUV to RGB matrix on a neutral triple `(Y, 128, 128)` gives the grey
`(Y - 16) / 219`. -/
theorem apply_yuv_to_rgb_neutral (Y : ℝ) :
    color_matrix_apply color_matrix_build_yuv_to_rgb_601 ![Y, 128, 128] =
      ![(Y - 16) / 219, (Y - 16) / 219, (Y - 16) / 219] := by
  rw [apply_yuv_to_rgb_601]
  funext i
  fin_cases i <;> simp

/-- The colour computed for a neutral triple at or below black is
`(16, 128, 128)`. -/
theorem table_color_sub_black (pow : ℝ → ℝ → ℝ) (Y : ℕ) (hY : Y ≤ 16) :
    table_color pow Y 128 128 = ![16, 128, 128] := by
  have hx : ((Y : ℝ) - 16) / 219 ≤ 0 := by
    have : (Y : ℝ) ≤ 16 := by exact_mod_cast hY
    apply div_nonpos_of_nonpos_of_nonneg <;> linarith
  have h1 : color_matrix_apply color_matrix_build_yuv_to_rgb_601
      ![(Y : ℝ), ((128 : ℕ) : ℝ), ((128 : ℕ) : ℝ)] =
      ![((Y : ℝ) - 16) / 219, ((Y : ℝ) - 16) / 219, ((Y : ℝ) - 16) / 219] := by
    have := apply_yuv_to_rgb_neutral (Y : ℝ)
    simpa using this
  have h2 : color_matrix_apply color_matrix_build_rgb_to_yuv_601 ![(0 : ℝ), 0, 0] =
      ![16, 128, 128] := by
    rw [apply_rgb_to_yuv_601]
    funext i
    fin_cases i <;> simp
  rw [table_color_eq_comp]
  simp only [Function.comp_apply]
  rw [h1, color_gamut_clamp_nonpos _ hx, transfer_apply_origin,
    apply_origin color_matrix_build_rgb_to_XYZ_601 (translation_transpose _),
    apply_origin color_matrix_build_XYZ_to_rgb_dell (invert_border _).1,
    transfer_unapply_origin, color_gamut_clamp_origin, h2]

/-- C28: sub-black neutral inputs collapse to studio black: for every byte
`Y ≤ 16`, the YUV to RGB matrix gives `R = G = B = (Y - 16) / 219 ≤ 0` on
`(Y, 128, 128)`, the first clamp sends it to `(0, 0, 0)`, and the table entry
for `(Y, 128, 128)` is exactly `(16, 128, 128)` in the three channels. -/
theorem sub_black_entry (pow : ℝ → ℝ → ℝ) (fresh : Table) (Y : ℕ) (hY : Y ≤ 16)
    (c : Fin 3) :
    color_matrix_apply color_matrix_build_yuv_to_rgb_601 ![(Y : ℝ), 128, 128] =
        ![((Y : ℝ) - 16) / 219, ((Y : ℝ) - 16) / 219, ((Y : ℝ) - 16) / 219] ∧
      ((Y : ℝ) - 16) / 219 ≤ 0 ∧
      color_gamut_clamp
        (color_matrix_apply color_matrix_build_yuv_to_rgb_601 ![(Y : ℝ), 128, 128]) =
          ![0, 0, 0] ∧
      ((get_color_transform_table pow fresh none).2
        (c.val * 0x1000000 + ((Y <<< 16) ||| (128 <<< 8) ||| 128)) : ℤ) =
          (![16, 128, 128] : Fin 3 → ℤ) c := by
  have hx : ((Y : ℝ) - 16) / 219 ≤ 0 := by
    have : (Y : ℝ) ≤ 16 := by exact_mod_cast hY
    apply div_nonpos_of_nonpos_of_nonneg <;> linarith
  refine ⟨apply_yuv_to_rgb_neutral _, hx, ?_, ?_⟩
  · rw [apply_yuv_to_rgb_neutral, color_gamut_clamp_nonpos _ hx]
  · rw [table_entry_int pow fresh c Y 128 128 (by omega) (by decide) (by decide),
      table_color_sub_black pow Y hY]
    fin_cases c
    · exact_mod_cast rint_intCast 16
    · exact_mod_cast rint_intCast 128
    · exact_mod_cast rint_intCast 128

/-- Witness of C28: the triple `(0, 128, 128)`, channel 0, in a table built on
zeroed memory with the real power. -/
theorem sub_black_entry_witness :
    (0 : ℕ) ≤ 16 ∧
      ((get_color_transform_table (fun x y : ℝ => x ^ y) (fun _ => 0) none).2
        ((0 : Fin 3).val * 0x1000000 + ((0 <<< 16) ||| (128 <<< 8) ||| 128)) : ℤ) =
          (![16, 128, 128] : Fin 3 → ℤ) 0 :=
  ⟨by decide,
    (sub_black_entry (fun x y : ℝ => x ^ y) (fun _ => 0) 0 (by decide) 0).2.2.2⟩

/-- The ninth power of `0.02` is below the twentieth power of `0.18`. -/
theorem sample_pow_lt_knee : (0.02 : ℝ) ^ 9 < (0.18 : ℝ) ^ 20 := by norm_num

/-- The power `0.02 ^ 0.45` is below `0.18 = 0.081 + 0.099`. -/
theorem sample_rpow_lt_knee : (0.02 : ℝ) ^ (0.4500 : ℝ) < 0.18 := by
  by_contra h
  have h20 : (0.18 : ℝ) ^ 20 ≤ ((0.02 : ℝ) ^ (0.4500 : ℝ)) ^ 20 :=
    pow_le_pow_left₀ (by norm_num) (not_lt.mp h) 20
  rw [rpow_gamma_pow _ (by norm_num)] at h20
  have := sample_pow_lt_knee
  linarith

/-- C29 fails on the code at `a = 0.018 ≤ b = 0.02`, both in `[0, 1]`:
`unapply` takes its linear branch at `a` and gives `0.081`, its power branch
at `b` and gives `0.02 ^ 0.45 - 0.099`, which is below `0.081`: the function
decreases across its breakpoint `0.0812 / 4.5`. -/
theorem transfer_unapply_decreases :
    ((0 : ℝ) ≤ 0.018 ∧ (0.018 : ℝ) ≤ 0.02 ∧ (0.02 : ℝ) ≤ 1) ∧
      color_transfer_function_unapply (fun x y => x ^ y) (fun _ => (0.018 : ℝ)) =
        (fun _ => (0.081 : ℝ)) ∧
      color_transfer_function_unapply (fun x y => x ^ y) (fun _ => (0.02 : ℝ)) =
        (fun _ => (0.02 : ℝ) ^ (0.4500 : ℝ) - 0.099) ∧
      ∀ i : Fin 3,
        color_transfer_function_unapply (fun x y => x ^ y) (fun _ => (0.02 : ℝ)) i <
          color_transfer_function_unapply (fun x y => x ^ y) (fun _ => (0.018 : ℝ)) i := by
  have ha : (0.018 : ℝ) < 0.0812 / 4.500 := by norm_num
  have hb : ¬ (0.02 : ℝ) < 0.0812 / 4.500 := by norm_num
  have e1 : color_transfer_function_unapply (fun x y => x ^ y) (fun _ => (0.018 : ℝ)) =
      (fun _ => (0.081 : ℝ)) := by
    funext i
    simp only [color_transfer_function_unapply, if_pos ha]
    norm_num
  have e2 : color_transfer_function_unapply (fun x y => x ^ y) (fun _ => (0.02 : ℝ)) =
      (fun _ => (0.02 : ℝ) ^ (0.4500 : ℝ) - 0.099) := by
    funext i
    simp only [color_transfer_function_unapply, if_neg hb]
  refine ⟨⟨by norm_num, by norm_num, by norm_num⟩, e1, e2, fun i => ?_⟩
  rw [e1, e2]
  have := sample_rpow_lt_knee
  norm_num at this ⊢
  linarith

/-! ## The inversions of the table build -/

/-- The primaries matrix of the Dell set has non-zero determinant. -/
theorem dell_primaries_det :
    (linearPart (primariesMatrix (color_xyY_to_XYZ (color_set (0.662 : ℝ) 0.329 1))
      (color_xyY_to_XYZ (color_set 0.205 0.683 1))
      (color_xyY_to_XYZ (color_set 0.146 0.077 1)))).det ≠ 0 := by
  rw [Matrix.det_fin_three]
  simp [linearPart, primariesMatrix, setEntry, color_set, color_xyY_to_XYZ,
    color_matrix_set_identity, castSucc_two]
  norm_num

/-- The determinant of the 3x3 block of the scaled and transposed primaries
matrix is the determinant of the primaries matrix times the three scales. -/
theorem det_scaled_primaries (P : ColorMatrix ℝ) (r g b s : Color ℝ) :
    (linearPart (color_matrix_transpose (setPrimaries P r g b s))).det =
      s 0 * s 1 * s 2 * (linearPart (primariesMatrix r g b)).det := by
  rw [Matrix.det_fin_three, Matrix.det_fin_three]
  simp [linearPart, color_matrix_transpose, setPrimaries, primariesMatrix, setEntry,
    castSucc_two]
  ring

/-- The scales of the Dell set: its white point through the transposed
inverse of its primaries matrix. -/
theorem dell_scale :
    color_matrix_apply
      (color_matrix_transpose
        (color_matrix_invert
          (primariesMatrix (color_xyY_to_XYZ (color_set (0.662 : ℝ) 0.329 1))
            (color_xyY_to_XYZ (color_set 0.205 0.683 1))
            (color_xyY_to_XYZ (color_set 0.146 0.077 1)))))
      (color_xyY_to_XYZ (color_set 0.3135 0.3290 1)) =
      ![28879 / 99276, 476051 / 777662, 452353 / 4665972] := by
  funext i
  fin_cases i <;>
    simp [color_matrix_apply, color_matrix_transpose, color_matrix_invert, invert_cofactors,
      invert_det, primariesMatrix, setEntry, color_set, color_xyY_to_XYZ,
      color_matrix_set_identity, cyc, castSucc_two, val_three] <;>
    norm_num

/-- The 3x3 block of the Dell RGB to XYZ matrix, the matrix inverted by
`color_matrix_build_XYZ_to_rgb_dell`, has non-zero determinant. -/
theorem dell_build_XYZ_det :
    (linearPart (color_matrix_build_XYZ (0.662 : ℝ) 0.329 0.205 0.683 0.146 0.077
      0.3135 0.3290)).det ≠ 0 := by
  rw [build_XYZ_eq, det_scaled_primaries, dell_scale]
  refine mul_ne_zero ?_ dell_primaries_det
  simp

/-- C23: every `color_matrix_invert` call of the table build divides by a
non-zero determinant: the primaries matrices that `color_matrix_build_XYZ`
inverts for the SMPTE C set and for the Dell set, and the white-scaled Dell
RGB to XYZ matrix that `color_matrix_build_XYZ_to_rgb_dell` inverts, all have
a non-zero 3x3 determinant, and so a non-zero `det` in `color_matrix_invert`. -/
theorem invert_calls_nonsingular :
    ((linearPart (primariesMatrix (color_xyY_to_XYZ (color_set (0.630 : ℝ) 0.340 1))
        (color_xyY_to_XYZ (color_set 0.310 0.595 1))
        (color_xyY_to_XYZ (color_set 0.155 0.070 1)))).det ≠ 0 ∧
      (linearPart (primariesMatrix (color_xyY_to_XYZ (color_set (0.662 : ℝ) 0.329 1))
        (color_xyY_to_XYZ (color_set 0.205 0.683 1))
        (color_xyY_to_XYZ (color_set 0.146 0.077 1)))).det ≠ 0 ∧
      (linearPart (color_matrix_build_XYZ (0.662 : ℝ) 0.329 0.205 0.683 0.146 0.077
        0.3135 0.3290)).det ≠ 0) ∧
    (invert_det (primariesMatrix (color_xyY_to_XYZ (color_set (0.630 : ℝ) 0.340 1))
        (color_xyY_to_XYZ (color_set 0.310 0.595 1))
        (color_xyY_to_XYZ (color_set 0.155 0.070 1))) ≠ 0 ∧
      invert_det (primariesMatrix (color_xyY_to_XYZ (color_set (0.662 : ℝ) 0.329 1))
        (color_xyY_to_XYZ (color_set 0.205 0.683 1))
        (color_xyY_to_XYZ (color_set 0.146 0.077 1))) ≠ 0 ∧
      invert_det (color_matrix_build_XYZ (0.662 : ℝ) 0.329 0.205 0.683 0.146 0.077
        0.3135 0.3290) ≠ 0) := by
  refine ⟨⟨smpte_c_primaries_det, dell_primaries_det, dell_build_XYZ_det⟩, ?_, ?_, ?_⟩
  · rw [invert_det_eq]
    exact smpte_c_primaries_det
  · rw [invert_det_eq]
    exact dell_primaries_det
  · rw [invert_det_eq]
    exact dell_build_XYZ_det

end CogColor
